import Mathlib

/-!
Shallow embedding of the evscript compiler core (semantic resolution and
code generation), translated from the Rust sources:

* `src/compiler.rs` — the complete legacy pipeline: `Environment`,
  `Environment::expand`, `Type`, `VariableTable` (first-fit frame
  allocator), `compile_environment`, `compile_expression`.
* `src/compiler/envs.rs` — the rewritten environment builder:
  `define_func`, `process_stmt`, the per-environment body loop of
  `collect_envs` (namespace `EnvsRs` below).
* `src/expr.rs` — the arena expression builder with eager constant
  folding (`Expr::binary_op`).

Conventions of the embedding:
* Rust `u8`/`u16`/`usize` indices and sizes are `Nat`; wherever overflow
  matters the source's own guard is translated (`checked_add` becomes an
  explicit bound test).  Literal values (`i64`) are `Int`.
* Loops that the source runs over a mutable cursor are translated as
  fueled recursions; the fuel is chosen so that it can never be exhausted
  on the states the source reaches (sizes are at least 1), and exhaustion
  is mapped to the distinguished outcome `Out.stuck`, which also models
  Rust panics (`todo!`, `unwrap` failures, out-of-bounds indexing).
* Writes to the output stream are modelled as structured emitted lines
  (`Line`, `EquLine`): the textual rendering of a line is a bijective
  function of the structure, so statement counts and operand claims can
  be read off directly.  Output already flushed before an error return is
  not tracked.
* `eprintln!` warnings are collected in an explicit warning list where a
  claim mentions them (`compile_environment`); elsewhere they are not
  observable.
* Hash maps are modelled as association lists with insert-replace
  (`HashMap::insert`) or insert-fresh (`Entry::Vacant`) exactly as the
  source uses them; iteration order of a map, unspecified in Rust, is the
  list order, and no theorem below depends on a particular order.
-/

/-- Outcome of running a piece of translated Rust: success, an error
propagated through `Result`, or `stuck` (a panic, a `todo!`, or exhausted
fuel of a loop translation). -/
inductive Out (α : Type) where
  | ok : α → Out α
  | err : String → Out α
  | stuck : Out α

/-- `Type` in `compiler.rs` (named `Ty` here because `Type` is a Lean
sort): signedness plus byte size. -/
structure Ty where
  signed : Bool
  size : Nat
deriving DecidableEq

/-- `Type::from(l, r)` in `compiler.rs`: the promotion rule for binary
operations. -/
def Ty.promote (l r : Ty) : Ty :=
  { signed := l.signed || r.signed
    size := if l.size ≥ r.size then l.size else r.size }

/-- The `Display` rendering of a `Type`: `u8`, `i16`, …  (`fmt` in
`compiler.rs`, which prints `size * 8` bits). -/
def Ty.fmt (t : Ty) : String :=
  (if t.signed then "i" else "u") ++ toString (t.size * 8)

/-- `TypeTable` of `compiler.rs`. -/
structure TypeTable where
  table : List (String × Ty)

/-- `TypeTable::lookup`. -/
def TypeTable.lookup (tt : TypeTable) (name : String) : Except String Ty :=
  match tt.table.lookup name with
  | some t => .ok t
  | none => .error ("Type " ++ name ++ " not found")

/-- A frame slot: `Variable` in `compiler.rs`. -/
structure Variable where
  name : Option String
  t : Ty

/-- `VariableTable` of `compiler.rs`: a 256-byte frame; indices outside
`[0, 256)` are conceptually absent and the scans below never read them. -/
structure VariableTable where
  vars : Nat → Option Variable

/-- The fresh table `VariableTable::new()`. -/
def VariableTable.new : VariableTable := ⟨fun _ => none⟩

/-- Store a variable record at a base address (the single array write the
source performs inside `alloc`). -/
def VariableTable.insert (vt : VariableTable) (i : Nat) (v : Variable) : VariableTable :=
  ⟨fun j => if j = i then some v else vt.vars j⟩

/-- The scan loop of `VariableTable::alloc`: from address `i`, an occupied
base slot skips forward by that slot's size, the first free address is
returned, and running past 256 reports exhaustion (`some none`).  The
loop advances by at least one per iteration whenever every stored size is
at least 1, so fuel 257 is always sufficient for such tables; `none`
models the source loop not terminating (only possible with a size-0
slot, which no well-formed `Type` produces). -/
def allocFrom (vt : Nat → Option Variable) : Nat → Nat → Option (Option Nat)
  | 0, _ => none
  | fuel + 1, i =>
    if i < 256 then
      match vt i with
      | some var => allocFrom vt fuel (i + var.t.size)
      | none => some (some i)
    else
      some none

/-- The error message of `VariableTable::alloc`. -/
def outOfSpaceMsg : String :=
  "Out of variable space; a single function is limited to 256 bytes"

/-- `VariableTable::alloc`: first-fit allocation of a new anonymous
variable of type `t`. -/
def VariableTable.alloc (vt : VariableTable) (t : Ty) : Out (Nat × VariableTable) :=
  match allocFrom vt.vars 257 0 with
  | none => .stuck
  | some none => .err outOfSpaceMsg
  | some (some i) => .ok (i, vt.insert i ⟨none, t⟩)

/-- The scan loop of `VariableTable::lookup`: an occupied slot whose name
matches is returned, otherwise the scan skips by the slot's size, and by
1 through holes. -/
def lookupFrom (vt : Nat → Option Variable) (name : String) : Nat → Nat → Option (Option Nat)
  | 0, _ => none
  | fuel + 1, i =>
    if i < 256 then
      match vt i with
      | some v =>
        if v.name = some name then some (some i)
        else lookupFrom vt name fuel (i + v.t.size)
      | none => lookupFrom vt name fuel (i + 1)
    else
      some none

/-- `VariableTable::lookup` (lookup by bound name). -/
def VariableTable.lookup (vt : VariableTable) (name : String) : Out Nat :=
  match lookupFrom vt.vars name 257 0 with
  | none => .stuck
  | some none => .err ("Variable " ++ name ++ " does not exist")
  | some (some i) => .ok i

/-- `VariableTable::type_of`; querying a non-starting address panics in
the source and is `stuck` here. -/
def VariableTable.typeOf (vt : VariableTable) (i : Nat) : Out Ty :=
  match vt.vars i with
  | some v => .ok v.t
  | none => .stuck

/-- A formal parameter of a definition: `types::DefinitionParam`
(`Type(t)` or `Return(t)`), reconstructed from its uses in
`compiler.rs`. -/
inductive DefinitionParam where
  | type : String → DefinitionParam
  | ret : String → DefinitionParam

/-- The legacy expression tree `types::Rpn`, reconstructed from the
exhaustive match in `compile_expression`. -/
inductive Rpn where
  | var : String → Rpn
  | signed : Int → Rpn
  | str : String → Rpn
  | call : String → List Rpn → Rpn
  | negate : Rpn → Rpn
  | not : Rpn → Rpn
  | deref : Rpn → Rpn
  | address : Rpn → Rpn
  | mul : Rpn → Rpn → Rpn
  | div : Rpn → Rpn → Rpn
  | mod : Rpn → Rpn → Rpn
  | add : Rpn → Rpn → Rpn
  | sub : Rpn → Rpn → Rpn
  | shiftLeft : Rpn → Rpn → Rpn
  | shiftRight : Rpn → Rpn → Rpn
  | binaryAnd : Rpn → Rpn → Rpn
  | binaryXor : Rpn → Rpn → Rpn
  | binaryOr : Rpn → Rpn → Rpn
  | equ : Rpn → Rpn → Rpn
  | notEqu : Rpn → Rpn → Rpn
  | lessThan : Rpn → Rpn → Rpn
  | greaterThan : Rpn → Rpn → Rpn
  | lessThanEqu : Rpn → Rpn → Rpn
  | greaterThanEqu : Rpn → Rpn → Rpn
  | logicalAnd : Rpn → Rpn → Rpn
  | logicalOr : Rpn → Rpn → Rpn
  | set : String → Rpn → Rpn

/-- An argument of an alias target: `types::AliasParam` (`ArgId(usize)` or
`Expression(Rpn)`). -/
inductive AliasParam where
  | argId : Nat → AliasParam
  | expression : Rpn → AliasParam

/-- `types::Def`: a Direct definition owning an opcode id (`bytecode`,
a `u8`). -/
structure Def where
  args : List DefinitionParam
  bytecode : Nat

/-- `types::Alias`. -/
structure Alias where
  args : List DefinitionParam
  target : String
  target_args : List AliasParam

/-- `types::Macro` (named `Mac` here). -/
structure Mac where
  args : List DefinitionParam
  target : String
  varargs : Bool

/-- `types::Definition`: the Direct/Alias/Macro tagged union. -/
inductive Definition where
  | Def : Def → Definition
  | Alias : Alias → Definition
  | Mac : Mac → Definition

/-- The legacy `Environment` of `compiler.rs`: name, definition map
(association list standing for the `HashMap`), and scratch-pool size. -/
structure Environment where
  name : String
  definitions : List (String × Definition)
  pool : Nat

/-- `Environment::lookup`. -/
def Environment.lookup (env : Environment) (name : String) : Except String Definition :=
  match env.definitions.lookup name with
  | some d => .ok d
  | none => .error ("Definition of " ++ name ++ " not found")

/-- `Environment::expand`: resolves a name to the environment-qualified
text of the Direct definition at the end of its alias chain.  The source
recursion carries no cycle detection; the translation is fueled, and
exhaustion (`stuck`) corresponds to the source diverging on a cyclic
alias graph. -/
def Environment.expand (env : Environment) : Nat → String → Out String
  | 0, _ => .stuck
  | fuel + 1, name =>
    match env.lookup name with
    | .error e => .err e
    | .ok (.Def _) => .ok (env.name ++ "@" ++ name)
    | .ok (.Alias al) => env.expand fuel al.target
    | .ok (.Mac _) => .err (name ++ " may not be a macro")

/-- The `define!` helper of `Environment::std`. -/
def stdDefine (u : String) (bytecode : Nat) : String × Definition :=
  (u, .Def ⟨[], bytecode⟩)

/-- The `sign_alias!` helper of `Environment::std`. -/
def stdSignAlias (u i : String) : String × Definition :=
  (i, .Alias ⟨[], u, []⟩)

/-- `Environment::std()`: the built-in standard environment, entry for
entry in source order. -/
def Environment.std : Environment :=
  { name := "std"
    definitions :=
      [ stdDefine "return" 0
      , stdDefine "yield" 1
      , stdDefine "put_u8" 2
      , stdSignAlias "put_u8" "put_i8"
      , stdDefine "mov_u8" 3
      , stdSignAlias "mov_u8" "mov_i8"
      , stdDefine "add_u8" 4
      , stdSignAlias "add_u8" "add_i8"
      , stdDefine "sub_u8" 5
      , stdSignAlias "sub_u8" "sub_i8"
      , stdDefine "mul_u8" 6
      , stdSignAlias "mul_u8" "mul_i8"
      , stdDefine "div_u8" 7
      , stdSignAlias "div_u8" "div_i8"
      , stdDefine "mod_u8" 8
      , stdSignAlias "mod_u8" "mod_i8"
      , stdDefine "shl_u8" 9
      , stdSignAlias "shl_u8" "shl_i8"
      , stdDefine "shr_u8" 10
      , stdSignAlias "shr_u8" "shr_i8"
      , stdDefine "band_u8" 11
      , stdSignAlias "band_u8" "band_i8"
      , stdDefine "bxor_u8" 12
      , stdSignAlias "bxor_u8" "bxor_i8"
      , stdDefine "bor_u8" 13
      , stdSignAlias "bor_u8" "bor_i8"
      , stdDefine "equ_u8" 14
      , stdSignAlias "equ_u8" "equ_i8"
      , stdDefine "nequ_u8" 15
      , stdSignAlias "nequ_u8" "nequ_i8"
      , stdDefine "lt_u8" 16
      , stdSignAlias "lt_u8" "lt_i8"
      , stdDefine "gt_u8" 17
      , stdSignAlias "gt_u8" "gt_i8"
      , stdDefine "lte_u8" 18
      , stdSignAlias "lte_u8" "lte_i8"
      , stdDefine "gte_u8" 19
      , stdSignAlias "gte_u8" "gte_i8"
      , stdDefine "land_u8" 20
      , stdSignAlias "land_u8" "land_i8"
      , stdDefine "lor_u8" 21
      , stdSignAlias "lor_u8" "lor_i8" ]
    pool := 0 }

/-- The type table the driver `compile` seeds: just `u8`. -/
def stdTypeTable : TypeTable := ⟨[("u8", ⟨false, 1⟩)]⟩

/-- One emitted instruction line of `compile_expression`: `db` lines are
written as tab, `db`, the resolved opcode text, then the comma-separated
operands; `raw` lines (macro expansion) are written as tab, the target
text, then the space-separated operands each followed by a comma. -/
inductive Line where
  | db : String → List Int → Line
  | raw : String → List Int → Line
deriving DecidableEq

/-- Result of compiling one expression: the optional result slot, the
variable table after compilation, and the lines this compilation emitted
(in emission order). -/
abbrev CompRes := Out (Option Nat × VariableTable × List Line)

/-- The message of the `ok_or` guards on sub-expression results. -/
def noReturnValueMsg : String := "Expression has no return value"

/-- The first loop over a callee's formal parameters (shared verbatim by
the `Def`, `Alias` and `Macro` arms of `compile_expression`): counts the
`Type` parameters, and on a `Return` parameter rejects a second one and
allocates the return slot. -/
def scanParams (tt : TypeTable) : List DefinitionParam → Nat → Option Nat → VariableTable →
    Out (Nat × Option Nat × VariableTable)
  | [], defArgCount, returnId, vt => .ok (defArgCount, returnId, vt)
  | .type _ :: rest, defArgCount, returnId, vt =>
    scanParams tt rest (defArgCount + 1) returnId vt
  | .ret t :: rest, defArgCount, returnId, vt =>
    if returnId.isSome then .err "A function may only have one return value"
    else
      match tt.lookup t with
      | .error e => .err e
      | .ok ty =>
        match vt.alloc ty with
        | .err e => .err e
        | .stuck => .stuck
        | .ok (id, vt1) => scanParams tt rest defArgCount (some id) vt1

/-- The second loop shared by the three call arms: walks the formal
parameters, compiling `args[index]` for each `Type` parameter (warning,
not failing, on a declared-type mismatch — the warning is not
observable here) and pushing the return slot for the `Return` parameter.
`compile` is the recursive call at the current fuel. -/
def compileArgs (compile : Rpn → VariableTable → CompRes) (tt : TypeTable) :
    List DefinitionParam → List Rpn → Nat → Option Nat → VariableTable →
    Out (List Nat × VariableTable × List Line)
  | [], _, _, _, vt => .ok ([], vt, [])
  | .type t :: rest, args, index, returnId, vt =>
    match args.get? index with
    | none => .stuck
    | some arg =>
      match compile arg vt with
      | .err e => .err e
      | .stuck => .stuck
      | .ok (none, _, _) => .err noReturnValueMsg
      | .ok (some thisArg, vt1, lines1) =>
        match tt.lookup t with
        | .error e => .err e
        | .ok _declared =>
          match vt1.typeOf thisArg with
          | .err e => .err e
          | .stuck => .stuck
          | .ok _actual =>
            match compileArgs compile tt rest args (index + 1) returnId vt1 with
            | .err e => .err e
            | .stuck => .stuck
            | .ok (ids, vt2, lines2) => .ok (thisArg :: ids, vt2, lines1 ++ lines2)
  | .ret _ :: rest, args, index, returnId, vt =>
    match returnId with
    | none => .stuck
    | some id =>
      match compileArgs compile tt rest args index returnId vt with
      | .err e => .err e
      | .stuck => .stuck
      | .ok (ids, vt2, lines2) => .ok (id :: ids, vt2, lines2)

/-- The `AliasVariant` enum local to the `Alias` arm. -/
inductive AliasVariant where
  | argId : Nat → AliasVariant
  | expressionId : Nat → AliasVariant

/-- The loop building `alias_ids` from `alias.target_args`: placeholders
pass through, sub-expressions are compiled independently. -/
def resolveTargetArgs (compile : Rpn → VariableTable → CompRes) :
    List AliasParam → VariableTable → Out (List AliasVariant × VariableTable × List Line)
  | [], vt => .ok ([], vt, [])
  | .argId index :: rest, vt =>
    match resolveTargetArgs compile rest vt with
    | .err e => .err e
    | .stuck => .stuck
    | .ok (ids, vt1, lines1) => .ok (.argId index :: ids, vt1, lines1)
  | .expression rpn :: rest, vt =>
    match compile rpn vt with
    | .err e => .err e
    | .stuck => .stuck
    | .ok (none, _, _) => .err noReturnValueMsg
    | .ok (some id, vt1, lines1) =>
      match resolveTargetArgs compile rest vt1 with
      | .err e => .err e
      | .stuck => .stuck
      | .ok (ids, vt2, lines2) => .ok (.expressionId id :: ids, vt2, lines1 ++ lines2)

/-- The emission loop over `alias_ids`: an `ExpressionId` writes its slot;
an `ArgId` `index` is rejected if it exceeds `arg_ids.len()` and
otherwise writes `arg_ids[index - 1]`.  An index of 0 underflows the
`usize` subtraction and panics in the source (`stuck` here, as is the
unreachable out-of-bounds read). -/
def emitAliasArgs (argIds : List Nat) : List AliasVariant → Out (List Int)
  | [] => .ok []
  | .expressionId index :: rest =>
    match emitAliasArgs argIds rest with
    | .err e => .err e
    | .stuck => .stuck
    | .ok tailArgs => .ok ((index : Int) :: tailArgs)
  | .argId index :: rest =>
    if index > argIds.length then .err ("Argument ID is too large (" ++ toString index ++ ")")
    else
      match index with
      | 0 => .stuck
      | j + 1 =>
        match argIds.get? j with
        | none => .stuck
        | some slot =>
          match emitAliasArgs argIds rest with
          | .err e => .err e
          | .stuck => .stuck
          | .ok tailArgs => .ok ((slot : Int) :: tailArgs)

/-- The inner `binary_operation` of `compile_expression`: lower the left
operand fully, then the right, promote the operand types, allocate the
result slot, and emit one type-suffixed instruction with operands
`(result, l, r)`.  `compile` is the recursive call at the current fuel
and `expandF` is `env.expand` at the current fuel. -/
def binaryOperation (compile : Rpn → VariableTable → CompRes)
    (expandF : String → Out String) (l : Rpn) (op : String) (r : Rpn)
    (vt : VariableTable) : CompRes :=
  match compile l vt with
  | .err e => .err e
  | .stuck => .stuck
  | .ok (none, _, _) => .err noReturnValueMsg
  | .ok (some lSlot, vt1, linesL) =>
    match compile r vt1 with
    | .err e => .err e
    | .stuck => .stuck
    | .ok (none, _, _) => .err noReturnValueMsg
    | .ok (some rSlot, vt2, linesR) =>
      match vt2.typeOf lSlot with
      | .err e => .err e
      | .stuck => .stuck
      | .ok lTy =>
        match vt2.typeOf rSlot with
        | .err e => .err e
        | .stuck => .stuck
        | .ok rTy =>
          let resultType := Ty.promote lTy rTy
          match vt2.alloc resultType with
          | .err e => .err e
          | .stuck => .stuck
          | .ok (result, vt3) =>
            match expandF (op ++ "_" ++ resultType.fmt) with
            | .err e => .err e
            | .stuck => .stuck
            | .ok opcode =>
              .ok (some result, vt3,
                linesL ++ linesR ++ [.db opcode [(result : Int), (lSlot : Int), (rSlot : Int)]])

/-- `compile_expression` of `compiler.rs`, fueled: one unit of fuel is
consumed per recursive layer (the source recursion is unbounded through
alias target-argument expressions, so the translation cannot be
structural).  `stuck` marks fuel exhaustion and the `todo!()` arms
(`String`, `Deref`, `Address`). -/
def compileExpr (env : Environment) (tt : TypeTable) : Nat → Rpn → VariableTable → CompRes
  | 0, _, _ => .stuck
  | fuel + 1, rpn, vt =>
    match rpn with
    | .var name =>
      match vt.lookup name with
      | .err e => .err e
      | .stuck => .stuck
      | .ok i => .ok (some i, vt, [])
    | .signed value =>
      -- The default type of an integer is u8.
      let resultType : Ty := ⟨false, 1⟩
      match vt.alloc resultType with
      | .err e => .err e
      | .stuck => .stuck
      | .ok (result, vt1) =>
        match env.expand (fuel + 1) ("put_" ++ resultType.fmt) with
        | .err e => .err e
        | .stuck => .stuck
        | .ok opcode => .ok (some result, vt1, [.db opcode [(result : Int), value]])
    | .str _ => .stuck
    | .call name args =>
      match env.lookup name with
      | .error e => .err e
      | .ok (.Def d) =>
        match scanParams tt d.args 0 none vt with
        | .err e => .err e
        | .stuck => .stuck
        | .ok (defArgCount, returnId, vt1) =>
          if args.length > defArgCount then .err "Too many arguments"
          else if args.length < defArgCount then .err "Not enough arguments"
          else
            match compileArgs (compileExpr env tt fuel) tt d.args args 0 returnId vt1 with
            | .err e => .err e
            | .stuck => .stuck
            | .ok (argIds, vt2, lines) =>
              match env.expand (fuel + 1) name with
              | .err e => .err e
              | .stuck => .stuck
              | .ok opcode =>
                .ok (returnId, vt2, lines ++ [.db opcode (argIds.map fun i => (i : Int))])
      | .ok (.Alias al) =>
        match scanParams tt al.args 0 none vt with
        | .err e => .err e
        | .stuck => .stuck
        | .ok (defArgCount, returnId, vt1) =>
          if args.length > defArgCount then .err "Too many arguments"
          else if args.length < defArgCount then .err "Not enough arguments"
          else
            match compileArgs (compileExpr env tt fuel) tt al.args args 0 returnId vt1 with
            | .err e => .err e
            | .stuck => .stuck
            | .ok (argIds, vt2, lines2) =>
              match resolveTargetArgs (compileExpr env tt fuel) al.target_args vt2 with
              | .err e => .err e
              | .stuck => .stuck
              | .ok (aliasIds, vt3, lines3) =>
                match env.expand (fuel + 1) name with
                | .err e => .err e
                | .stuck => .stuck
                | .ok opcode =>
                  match emitAliasArgs argIds aliasIds with
                  | .err e => .err e
                  | .stuck => .stuck
                  | .ok resolved =>
                    .ok (returnId, vt3, lines2 ++ lines3 ++ [.db opcode resolved])
      | .ok (.Mac m) =>
        match scanParams tt m.args 0 none vt with
        | .err e => .err e
        | .stuck => .stuck
        | .ok (defArgCount, returnId, vt1) =>
          if args.length > defArgCount && !m.varargs then .err "Too many arguments"
          else if args.length < defArgCount then .err "Not enough arguments"
          else
            match compileArgs (compileExpr env tt fuel) tt m.args args 0 returnId vt1 with
            | .err e => .err e
            | .stuck => .stuck
            | .ok (argIds, vt2, lines) =>
              .ok (returnId, vt2, lines ++ [.raw m.target (argIds.map fun i => (i : Int))])
    | .negate i =>
      match compileExpr env tt fuel i vt with
      | .err e => .err e
      | .stuck => .stuck
      | .ok (none, _, _) => .err noReturnValueMsg
      | .ok (some operand, vt1, lines1) =>
        match vt1.typeOf operand with
        | .err e => .err e
        | .stuck => .stuck
        | .ok operandType =>
          match vt1.alloc operandType with
          | .err e => .err e
          | .stuck => .stuck
          | .ok (zeroSlot, vt2) =>
            match vt2.alloc operandType with
            | .err e => .err e
            | .stuck => .stuck
            | .ok (result, vt3) =>
              match env.expand (fuel + 1) ("put_" ++ operandType.fmt) with
              | .err e => .err e
              | .stuck => .stuck
              | .ok putOp =>
                match env.expand (fuel + 1) ("sub_" ++ operandType.fmt) with
                | .err e => .err e
                | .stuck => .stuck
                | .ok subOp =>
                  .ok (some result, vt3,
                    lines1 ++ [.db putOp [(zeroSlot : Int), 0],
                      .db subOp [(result : Int), (zeroSlot : Int), (operand : Int)]])
    | .not i =>
      match compileExpr env tt fuel i vt with
      | .err e => .err e
      | .stuck => .stuck
      | .ok (none, _, _) => .err noReturnValueMsg
      | .ok (some operand, vt1, lines1) =>
        match vt1.typeOf operand with
        | .err e => .err e
        | .stuck => .stuck
        | .ok operandType =>
          match vt1.alloc operandType with
          | .err e => .err e
          | .stuck => .stuck
          | .ok (ff, vt2) =>
            match vt2.alloc operandType with
            | .err e => .err e
            | .stuck => .stuck
            | .ok (result, vt3) =>
              match env.expand (fuel + 1) ("put_" ++ operandType.fmt) with
              | .err e => .err e
              | .stuck => .stuck
              | .ok putOp =>
                -- the source writes the literal text `$FF` (255) as the operand
                match env.expand (fuel + 1) ("xor_" ++ operandType.fmt) with
                | .err e => .err e
                | .stuck => .stuck
                | .ok xorOp =>
                  .ok (some result, vt3,
                    lines1 ++ [.db putOp [(ff : Int), 255],
                      .db xorOp [(result : Int), (operand : Int), (ff : Int)]])
    | .deref _ => .stuck
    | .address _ => .stuck
    | .mul l r => binaryOperation (compileExpr env tt fuel) (env.expand (fuel + 1)) l "mul" r vt
    | .div l r => binaryOperation (compileExpr env tt fuel) (env.expand (fuel + 1)) l "div" r vt
    | .mod l r => binaryOperation (compileExpr env tt fuel) (env.expand (fuel + 1)) l "mod" r vt
    | .add l r => binaryOperation (compileExpr env tt fuel) (env.expand (fuel + 1)) l "add" r vt
    | .sub l r => binaryOperation (compileExpr env tt fuel) (env.expand (fuel + 1)) l "sub" r vt
    | .shiftLeft l r => binaryOperation (compileExpr env tt fuel) (env.expand (fuel + 1)) l "shl" r vt
    | .shiftRight l r => binaryOperation (compileExpr env tt fuel) (env.expand (fuel + 1)) l "shr" r vt
    | .binaryAnd l r => binaryOperation (compileExpr env tt fuel) (env.expand (fuel + 1)) l "band" r vt
    | .binaryXor l r => binaryOperation (compileExpr env tt fuel) (env.expand (fuel + 1)) l "bxor" r vt
    | .binaryOr l r => binaryOperation (compileExpr env tt fuel) (env.expand (fuel + 1)) l "bor" r vt
    | .equ l r => binaryOperation (compileExpr env tt fuel) (env.expand (fuel + 1)) l "equ" r vt
    | .notEqu l r => binaryOperation (compileExpr env tt fuel) (env.expand (fuel + 1)) l "nequ" r vt
    | .lessThan l r => binaryOperation (compileExpr env tt fuel) (env.expand (fuel + 1)) l "lt" r vt
    | .greaterThan l r => binaryOperation (compileExpr env tt fuel) (env.expand (fuel + 1)) l "gt" r vt
    | .lessThanEqu l r => binaryOperation (compileExpr env tt fuel) (env.expand (fuel + 1)) l "lte" r vt
    | .greaterThanEqu l r => binaryOperation (compileExpr env tt fuel) (env.expand (fuel + 1)) l "gte" r vt
    | .logicalAnd l r => binaryOperation (compileExpr env tt fuel) (env.expand (fuel + 1)) l "land" r vt
    | .logicalOr l r => binaryOperation (compileExpr env tt fuel) (env.expand (fuel + 1)) l "lor" r vt
    | .set name i =>
      match vt.lookup name with
      | .err e => .err e
      | .stuck => .stuck
      | .ok dest =>
        match vt.typeOf dest with
        | .err e => .err e
        | .stuck => .stuck
        | .ok destType =>
          match compileExpr env tt fuel i vt with
          | .err e => .err e
          | .stuck => .stuck
          | .ok (none, _, _) => .err noReturnValueMsg
          | .ok (some source, vt1, lines1) =>
            match env.expand (fuel + 1) ("mov_" ++ destType.fmt) with
            | .err e => .err e
            | .stuck => .stuck
            | .ok movOp =>
              .ok (some dest, vt1, lines1 ++ [.db movOp [(dest : Int), (source : Int)]])

/-- Projection used by concrete lowering statements: result slot and
emitted lines of a successful compilation, discarding the table. -/
def runLines (r : CompRes) : Option (Option Nat × List Line) :=
  match r with
  | .ok (res, _, lines) => some (res, lines)
  | _ => none

/-- One `def <env>@<name> equ <id>` line written by `compile_environment`. -/
structure EquLine where
  envName : String
  defName : String
  id : Nat
deriving DecidableEq

/-- `HashMap::insert` on the definition map: replaces the entry of an
existing key, otherwise appends. -/
def insertDef (m : List (String × Definition)) (k : String) (v : Definition) :
    List (String × Definition) :=
  match m with
  | [] => [(k, v)]
  | (k1, v1) :: rest => if k1 = k then (k, v) :: rest else (k1, v1) :: insertDef rest k v

/-- `u8::checked_add`. -/
def checkedAddU8 (a b : Nat) : Option Nat :=
  if a + b ≤ 255 then some (a + b) else none

/-- The error for an opcode id overflowing 8 bits in `compile_environment`. -/
def bytecodeLimitMsg (thisName : String) : String :=
  "Hit bytecode limit in environment " ++ thisName

/-- A statement in a legacy environment block: `types::Statement` as
consumed by `compile_environment` (`Use`, `Definition`, `Pool`, and the
catch-all rejected arm).  `Pool` carries the result of
`Expression::eval_const`, whose implementation lives in the missing
`types` module; the constant-folded value (or `none` for a non-constant
expression) stands in for the expression. -/
inductive LStatement where
  | use : String → LStatement
  | definition : String → Definition → LStatement
  | pool : Option Int → LStatement
  | other : LStatement

/-- The mutable state threaded through `compile_environment`'s statement
loop: the definition map and pool of the environment being built, the
`bytecode_index` counter, plus the warnings printed and the `equ` lines
written so far. -/
structure EnvBuild where
  definitions : List (String × Definition)
  pool : Nat
  bytecodeIndex : Nat
  warnings : List String
  output : List EquLine

/-- The loop over the other environment's definitions inside the `Use`
arm of `compile_environment`: warn on a duplicate name, rebase a `Def`'s
id by the current `bytecode_index` via `checked_add` (writing its `equ`
line and tracking `greatest_bytecode`), and insert the copy.  The second
component of the state pair is `greatest_bytecode`. -/
def processUseDefs (thisName : String) (bytecodeIndex : Nat) :
    List (String × Definition) → EnvBuild → Nat → Except String (EnvBuild × Nat)
  | [], st, greatest => .ok (st, greatest)
  | (defName, d) :: rest, st, greatest =>
    let warnings1 :=
      if (st.definitions.lookup defName).isSome then
        st.warnings ++ ["duplicate definition of " ++ defName ++ " inside use statement"]
      else st.warnings
    match d with
    | .Def sub =>
      match checkedAddU8 bytecodeIndex sub.bytecode with
      | none => .error (bytecodeLimitMsg thisName)
      | some newId =>
        let greatest1 := if newId > greatest then newId else greatest
        processUseDefs thisName bytecodeIndex rest
          { definitions := insertDef st.definitions defName (.Def ⟨sub.args, newId⟩)
            pool := st.pool
            bytecodeIndex := st.bytecodeIndex
            warnings := warnings1
            output := st.output ++ [⟨thisName, defName, newId⟩] }
          greatest1
    | _ =>
      processUseDefs thisName bytecodeIndex rest
        { definitions := insertDef st.definitions defName d
          pool := st.pool
          bytecodeIndex := st.bytecodeIndex
          warnings := warnings1
          output := st.output }
        greatest

/-- One iteration of `compile_environment`'s statement loop. -/
def compileEnvStep (thisName : String) (table : List (String × Environment))
    (st : EnvBuild) : LStatement → Except String EnvBuild
  | .use name =>
    match table.lookup name with
    | none => .error ("Environment " ++ name ++ " does not exist")
    | some otherEnv =>
      match processUseDefs thisName st.bytecodeIndex otherEnv.definitions st st.bytecodeIndex with
      | .error e => .error e
      | .ok (st1, greatest) =>
        .ok { st1 with bytecodeIndex := greatest }
  | .definition name d =>
    let warnings1 :=
      if (st.definitions.lookup name).isSome then
        st.warnings ++ ["duplicate definition of " ++ name]
      else st.warnings
    -- the `equ` line is written for every definition kind, with the
    -- current counter, before the counter moves
    let output1 := st.output ++ [⟨thisName, name, st.bytecodeIndex⟩]
    match d with
    | .Def sub =>
      match checkedAddU8 st.bytecodeIndex 1 with
      | none => .error (bytecodeLimitMsg thisName)
      | some next =>
        .ok { definitions := insertDef st.definitions name (.Def ⟨sub.args, st.bytecodeIndex⟩)
              pool := st.pool
              bytecodeIndex := next
              warnings := warnings1
              output := output1 }
    | _ =>
      .ok { definitions := insertDef st.definitions name d
            pool := st.pool
            bytecodeIndex := st.bytecodeIndex
            warnings := warnings1
            output := output1 }
  | .pool ev =>
    match ev with
    | none => .error "pool size expression is not constant"
    | some poolSize =>
      if poolSize < 0 then .error "Pool size may not be negative"
      else if poolSize > 256 then .error "Pool size is limited to 256 bytes"
      else .ok { st with pool := poolSize.toNat }
  | .other => .error "Statement is not allowed within environments."

/-- The statement loop of `compile_environment`. -/
def compileEnvLoop (thisName : String) (table : List (String × Environment)) :
    List LStatement → EnvBuild → Except String EnvBuild
  | [], st => .ok st
  | stmt :: rest, st =>
    match compileEnvStep thisName table st stmt with
    | .error e => .error e
    | .ok st1 => compileEnvLoop thisName table rest st1

/-- `compile_environment` of `compiler.rs`: builds an `Environment` from
an environment block, returning it together with the warnings printed
and the `equ` lines written. -/
def compileEnvironment (thisName : String) (contents : List LStatement)
    (table : List (String × Environment)) :
    Except String (Environment × List String × List EquLine) :=
  match compileEnvLoop thisName table contents ⟨[], 0, 0, [], []⟩ with
  | .error e => .error e
  | .ok st => .ok (⟨thisName, st.definitions, st.pool⟩, st.warnings, st.output)

/-- The opcode id of a Direct definition in a built environment. -/
def defIdOf (env : Environment) (name : String) : Option Nat :=
  match env.definitions.lookup name with
  | some (.Def d) => some d.bytecode
  | _ => none

/-- An interned identifier (`string_interner::symbol::SymbolU32`);
compared only by handle equality. -/
abbrev Ident := Nat

/-- An operator node of the arena expression (`Op` in `expr.rs`);
`OpRef` indices are plain naturals. -/
inductive Op where
  | number : Int → Op
  | str : String → Op
  | variable_ : Ident → Op
  | address : Ident → Op
  | call : Ident → List Nat → Op
  | deref : Nat → Op
  | neg : Nat → Op
  | cpl : Nat → Op
  | logicalOr : Nat → Nat → Op
  | logicalAnd : Nat → Nat → Op
  | equ : Nat → Nat → Op
  | notEqu : Nat → Nat → Op
  | lessThan : Nat → Nat → Op
  | lessThanEqu : Nat → Nat → Op
  | greaterThan : Nat → Nat → Op
  | greaterThanEqu : Nat → Nat → Op
  | binaryOr : Nat → Nat → Op
  | binaryXor : Nat → Nat → Op
  | binaryAnd : Nat → Nat → Op
  | shiftLeft : Nat → Nat → Op
  | shiftRight : Nat → Nat → Op
  | add : Nat → Nat → Op
  | sub : Nat → Nat → Op
  | mul : Nat → Nat → Op
  | div : Nat → Nat → Op
  | mod : Nat → Nat → Op
deriving DecidableEq

/-- `Expr` in `expr.rs`: the append-only arena of operations. -/
structure Expr where
  ops : List Op
deriving DecidableEq

/-- `Expr::unary_op`: folds a constant operand at construction time,
otherwise pushes the operator applied to the present top of the arena. -/
def Expr.unaryOp (expr : Expr) (operator : Nat → Op) (constEval : Int → Int) : Expr :=
  match expr.ops with
  | [Op.number n] => ⟨[Op.number (constEval n)]⟩
  | ops => ⟨ops ++ [operator ops.length]⟩

/-- `Expr::binary_op`: if both sides are single `Number` terminals the
result is the single folded terminal; otherwise the arenas are
concatenated and the operator node applied to `OpRef(lhs.ops.len())` and
`OpRef(rhs.ops.len())` is pushed. -/
def Expr.binaryOp (lhs rhs : Expr) (operator : Nat → Nat → Op)
    (constEval : Int → Int → Int) : Expr :=
  match lhs.ops, rhs.ops with
  | [Op.number p], [Op.number q] => ⟨[Op.number (constEval p q)]⟩
  | lops, rops => ⟨lops ++ rops ++ [operator lops.length rops.length]⟩

namespace EnvsRs

/-- `DefParamKind` of `parsing/mod.rs`. -/
inductive DefParamKind where
  | simple
  | ret
  | const
deriving DecidableEq

/-- `DefParam` of `parsing/mod.rs`. -/
structure DefParam where
  name : Ident
  kind : DefParamKind
deriving DecidableEq

/-- `AliasParam` of `parsing/mod.rs` (an alias parameter is a 1-based
placeholder or an expression, possibly a const one). -/
inductive AliasP where
  | placeholder : Nat → AliasP
  | expr : Bool → Expr → AliasP
deriving DecidableEq

/-- `DefKind` of `parsing/mod.rs`. -/
inductive DefKind where
  | simple
  | alias : Ident → List AliasP → DefKind
  | mac : Ident → DefKind
deriving DecidableEq

/-- `FuncKind` of `compiler/envs.rs` (`Normal`/`Alias`/`Macro`). -/
inductive FuncKind where
  | normal : Nat → FuncKind
  | alias : Ident → List AliasP → FuncKind
  | mac : Ident → FuncKind
deriving DecidableEq

/-- `Func` of `compiler/envs.rs`. -/
structure Func where
  args : List DefParam
  kind : FuncKind
deriving DecidableEq

/-- `Funcs`: the per-environment function map, an association list with
fresh-only insertion (`Entry::Vacant`). -/
abbrev Funcs := List (Ident × Func)

/-- `Env` of `compiler/envs.rs`. -/
structure Env where
  funcs : Funcs
  var_pool_size : Nat
deriving DecidableEq

/-- The diagnostics `collect_envs`/`process_stmt`/`define_func` can emit,
one constructor per `Diagnostic::error()` site (the rendered message
interpolates resolved identifier names; the constructor holds the same
data). -/
inductive Diag where
  | unknownEnv : Ident → Diag
  | poolNotConst : Diag
  | poolTooLarge : Int → Diag
  | poolNegative : Diag
  | poolRedefinition : Diag
  | idClash : Ident → Nat → Ident → Diag
  | funcRedefinition : Ident → Diag
  | envRedefinition : Ident → Diag
deriving DecidableEq

/-- The id-clash scan at the top of `define_func`: the first function
whose `Normal` id equals `id`, if any. -/
def findClash (funcs : Funcs) (id : Nat) : Option Ident :=
  match funcs with
  | [] => none
  | (otherName, f) :: rest =>
    match f.kind with
    | .normal otherId => if id = otherId then some otherName else findClash rest id
    | _ => findClash rest id

/-- `define_func` of `compiler/envs.rs`: rejects a `Normal` kind whose id
clashes with an existing one, rejects a redefinition of the name, and
otherwise inserts the new function. -/
def define_func (funcs : Funcs) (name : Ident) (args : List DefParam)
    (kind : FuncKind) : Except Diag Funcs :=
  match kind with
  | .normal id =>
    match findClash funcs id with
    | some otherName => .error (.idClash name id otherName)
    | none =>
      if (funcs.lookup name).isSome then .error (.funcRedefinition name)
      else .ok (funcs ++ [(name, ⟨args, kind⟩)])
  | _ =>
    if (funcs.lookup name).isSome then .error (.funcRedefinition name)
    else .ok (funcs ++ [(name, ⟨args, kind⟩)])

/-- The loop of the `Use` arm of `process_stmt`: `define_func` for every
function of the target environment, in map-iteration order. -/
def defineAll (funcs : Funcs) : Funcs → Except Diag Funcs
  | [] => .ok funcs
  | (name, f) :: rest =>
    match define_func funcs name f.args f.kind with
    | .error e => .error e
    | .ok funcs1 => defineAll funcs1 rest

/-- A statement of an environment block as `process_stmt` consumes it.
The `pool` size expression is represented by the result of
`Expr::const_eval` (a collaborator whose implementation is not part of
the compiler core): `none` for a non-constant expression. -/
inductive EnvStatementKind where
  | defStmt : Ident → List DefParam → DefKind → EnvStatementKind
  | use : Ident → EnvStatementKind
  | pool : Option Int → EnvStatementKind
deriving DecidableEq

/-- The state `process_stmt` mutates: the function map, the recorded pool
size (`NonZeroU16` represented by the positive natural it wraps), and
the running opcode id counter. -/
structure PState where
  funcs : Funcs
  pool_size : Option Nat
  id : Nat
deriving DecidableEq

/-- `MAX_SIZE` in `process_stmt`: `u16::MAX - 1`. -/
def maxPoolSize : Int := 65534

/-- `process_stmt` of `compiler/envs.rs`. -/
def process_stmt (envs : List (Ident × Env)) (st : PState) :
    EnvStatementKind → Except Diag PState
  | .defStmt name args kind =>
    match kind with
    | .simple =>
      match define_func st.funcs name args (.normal st.id) with
      | .error e => .error e
      | .ok funcs1 => .ok ⟨funcs1, st.pool_size, st.id + 1⟩
    | .alias target targetArgs =>
      match define_func st.funcs name args (.alias target targetArgs) with
      | .error e => .error e
      | .ok funcs1 => .ok ⟨funcs1, st.pool_size, st.id⟩
    | .mac target =>
      match define_func st.funcs name args (.mac target) with
      | .error e => .error e
      | .ok funcs1 => .ok ⟨funcs1, st.pool_size, st.id⟩
  | .use target =>
    match envs.lookup target with
    | none => .error (.unknownEnv target)
    | some targetEnv =>
      match defineAll st.funcs targetEnv.funcs with
      | .error e => .error e
      | .ok funcs1 => .ok ⟨funcs1, st.pool_size, st.id⟩
  | .pool ev =>
    match ev with
    | none => .error .poolNotConst
    | some size =>
      if size > maxPoolSize then .error (.poolTooLarge size)
      else if size < 0 then .error .poolNegative
      else if st.pool_size.isSome then .error .poolRedefinition
      else .ok ⟨st.funcs, some (size.toNat + 1), st.id⟩

/-- The statement loop of `collect_envs` over one environment body. -/
def processStmts (envs : List (Ident × Env)) :
    List EnvStatementKind → PState → Except Diag PState
  | [], st => .ok st
  | stmt :: rest, st =>
    match process_stmt envs st stmt with
    | .error e => .error e
    | .ok st1 => processStmts envs rest st1

/-- Building one environment body as `collect_envs` does: process every
statement starting from an empty state, then decode the recorded pool
size (`size.get() - 1`, defaulting to 0 when no `pool` statement
appeared). -/
def collectEnvBody (envs : List (Ident × Env)) (body : List EnvStatementKind) :
    Except Diag Env :=
  match processStmts envs body ⟨[], none, 0⟩ with
  | .error e => .error e
  | .ok st =>
    .ok ⟨st.funcs, match st.pool_size with
      | some s => s - 1
      | none => 0⟩

end EnvsRs

/-- A sequence of `alloc` calls (the quantification structure of the
allocator claims): allocate each requested type in order, returning the
addresses in order. -/
def allocSeq (vt : VariableTable) : List Ty → Out (List Nat × VariableTable)
  | [] => .ok ([], vt)
  | t :: ts =>
    match vt.alloc t with
    | .err e => .err e
    | .stuck => .stuck
    | .ok (a, vt1) =>
      match allocSeq vt1 ts with
      | .err e => .err e
      | .stuck => .stuck
      | .ok (addrs, vt2) => .ok (a :: addrs, vt2)

/-- Total of the byte sizes of a list of types. -/
def sizeSum (ts : List Ty) : Nat := (ts.map Ty.size).sum

/-- The table contents after allocating the types `ts` consecutively from
base address `a`: each type occupies its base address, the next type
starts `size` bytes later. -/
def layoutFrom (a : Nat) : List Ty → Nat → Option Variable
  | [] => fun _ => none
  | t :: ts => fun j => if j = a then some ⟨none, t⟩ else layoutFrom (a + t.size) ts j

/-- Projection: the addresses a successful allocation sequence returns. -/
def allocAddrs (vt : VariableTable) (ts : List Ty) : Option (List Nat) :=
  match allocSeq vt ts with
  | .ok (addrs, _) => some addrs
  | _ => none

/-- What the `Use` arm of `compile_environment` stores for one copied
definition: a `Def` has its id rebased by the destination counter,
anything else is copied as is. -/
def rebaseDef (b : Nat) : Definition → Definition
  | .Def s => .Def ⟨s.args, b + s.bytecode⟩
  | d => d

/-- The value of `greatest_bytecode` after the `Use` copy loop: the
running maximum of the incoming value and every rebased `Def` id. -/
def rebasedMax (b : Nat) (greatest : Nat) : List (String × Definition) → Nat
  | [] => greatest
  | (_, .Def s) :: rest =>
    rebasedMax b (if b + s.bytecode > greatest then b + s.bytecode else greatest) rest
  | _ :: rest => rebasedMax b greatest rest

/-- The warning text `compile_environment` prints for a duplicate name
met inside a `use` statement. -/
def useDupWarning (defName : String) : String :=
  "duplicate definition of " ++ defName ++ " inside use statement"

/-- Projection: the warnings accumulated by a successful environment
build step. -/
def buildWarnings (r : Except String EnvBuild) : List String :=
  match r with
  | .ok st => st.warnings
  | .error _ => []

/-- Projection: the definition a name resolves to after a successful
environment build step. -/
def buildLookup (r : Except String EnvBuild) (name : String) : Option Definition :=
  match r with
  | .ok st => st.definitions.lookup name
  | .error _ => none

/-- Number of `Pool` statements in an environment body. -/
def EnvsRs.countPools : List EnvsRs.EnvStatementKind → Nat
  | [] => 0
  | .pool _ :: rest => EnvsRs.countPools rest + 1
  | _ :: rest => EnvsRs.countPools rest

/-- The alias edge of the definition graph: the target of `name` when
`name` is defined as an alias, and nothing otherwise. -/
def aliasTarget (env : Environment) (name : String) : Option String :=
  match env.definitions.lookup name with
  | some (.Alias al) => some al.target
  | _ => none

/-- One step along an alias chain (staying put at a non-alias). -/
def chainStep (env : Environment) (name : String) : String :=
  (aliasTarget env name).getD name

/-- The name reached after `n` alias steps from `name`. -/
def chainAt (env : Environment) (name : String) : Nat → String
  | 0 => name
  | n + 1 => chainAt env (chainStep env name) n

/-- A two-cycle of aliases: `a` targets `b` and `b` targets `a`; the
source `Environment::expand` diverges on it. -/
def cyclicEnv : Environment :=
  ⟨"c", [("a", .Alias ⟨[], "b", []⟩), ("b", .Alias ⟨[], "a", []⟩)], 0⟩

/-- The environment block of `A { def f; def g; def h; }` (the parser
hands `Def` payloads with a placeholder id 0, which
`compile_environment` overwrites). -/
def c1EnvAContents : List LStatement :=
  [ .definition "f" (.Def ⟨[], 0⟩)
  , .definition "g" (.Def ⟨[], 0⟩)
  , .definition "h" (.Def ⟨[], 0⟩) ]

/-- The environment `A` built from that block. -/
def c1EnvA : Option Environment :=
  match compileEnvironment "A" c1EnvAContents [] with
  | .ok (e, _, _) => some e
  | .error _ => none

/-- The environment table after declaring `A`. -/
def c1Table : List (String × Environment) :=
  match c1EnvA with
  | some e => [("A", e)]
  | none => []

/-- The environment `B { use A; def extra; }` built against that table. -/
def c1EnvB : Option Environment :=
  match compileEnvironment "B" [.use "A", .definition "extra" (.Def ⟨[], 0⟩)] c1Table with
  | .ok (e, _, _) => some e
  | .error _ => none

/-- A destination state for the duplicate-merge scenario: `dup` is
already defined locally and the counter stands at 1. -/
def c4State : EnvBuild :=
  ⟨[("dup", .Def ⟨[], 5⟩)], 0, 1, [], []⟩

/-- A table holding an environment `X` whose sole definition `dup`
collides with the destination's. -/
def c4Table : List (String × Environment) :=
  [("X", ⟨"X", [("dup", .Def ⟨[], 0⟩)], 0⟩)]

/-- A small environment defining `put_u8` and `xor_u8` directly, so that
the `Not` lowering can resolve its `xor_`-prefixed opcode. -/
def c7Env : Environment :=
  ⟨"e", [("put_u8", .Def ⟨[], 0⟩), ("xor_u8", .Def ⟨[], 1⟩)], 0⟩

/-- An environment whose alias `a` takes one argument but substitutes
placeholder 2, exceeding its own argument count. -/
def c8Env : Environment :=
  ⟨"e8",
    [ ("put_u8", .Def ⟨[], 0⟩)
    , ("op", .Def ⟨[], 1⟩)
    , ("a", .Alias ⟨[.type "u8"], "op", [.argId 2]⟩) ],
    0⟩

/-- Projection: the opcode id a name gets in a successfully compiled
environment. -/
def builtDefId (r : Except String (Environment × List String × List EquLine))
    (name : String) : Option Nat :=
  match r with
  | .ok (env, _, _) => defIdOf env name
  | .error _ => none

/-!  Theorems.  The first group proves reusable facts about the frame
allocator scan, the definition-map operations, and the environment
builders; the claim theorems follow. -/

theorem allocFrom_agree (fuel : Nat) :
    ∀ (i : Nat) (vt vt2 : Nat → Option Variable),
      (∀ j, i ≤ j → vt j = vt2 j) →
      allocFrom vt fuel i = allocFrom vt2 fuel i := by
  induction fuel with
  | zero => intro i vt vt2 _; rfl
  | succ fuel ih =>
    intro i vt vt2 h
    simp only [allocFrom]
    by_cases hi : i < 256
    · simp only [hi, if_true]
      rw [h i (Nat.le_refl i)]
      cases hv : vt2 i with
      | none => rfl
      | some var =>
        exact ih (i + var.t.size) vt vt2
          (fun j hj => h j (Nat.le_trans (Nat.le_add_right i var.t.size) hj))
    · simp [hi]

theorem allocFrom_found_none (fuel : Nat) :
    ∀ (i j : Nat) (vt : Nat → Option Variable),
      allocFrom vt fuel i = some (some j) → vt j = none := by
  induction fuel with
  | zero => intro i j vt h; simp [allocFrom] at h
  | succ fuel ih =>
    intro i j vt h
    simp only [allocFrom] at h
    by_cases hi : i < 256
    · simp only [hi, if_true] at h
      cases hv : vt i with
      | none =>
        rw [hv] at h
        simp at h
        exact h ▸ hv
      | some var =>
        rw [hv] at h
        exact ih (i + var.t.size) j vt h
    · simp [hi] at h

theorem alloc_ok_inv (vt : VariableTable) (t : Ty) (i : Nat) (vt1 : VariableTable)
    (h : vt.alloc t = .ok (i, vt1)) :
    vt.vars i = none ∧ vt1 = vt.insert i ⟨none, t⟩ := by
  unfold VariableTable.alloc at h
  cases haf : allocFrom vt.vars 257 0 with
  | none => rw [haf] at h; simp at h
  | some o =>
    cases o with
    | none => rw [haf] at h; simp at h
    | some j =>
      rw [haf] at h
      simp only [Out.ok.injEq, Prod.mk.injEq] at h
      obtain ⟨rfl, rfl⟩ := h
      exact ⟨allocFrom_found_none 257 0 j vt.vars haf, rfl⟩

theorem sizeSum_cons (t : Ty) (ts : List Ty) :
    sizeSum (t :: ts) = t.size + sizeSum ts := by
  simp [sizeSum]

theorem sizeSum_append (ts us : List Ty) :
    sizeSum (ts ++ us) = sizeSum ts + sizeSum us := by
  simp [sizeSum]

theorem allocFrom_layout (ts : List Ty) :
    ∀ (a fuel : Nat), (∀ t ∈ ts, 1 ≤ t.size) → 257 ≤ fuel + a → 1 ≤ fuel →
      allocFrom (layoutFrom a ts) fuel a =
        some (if a + sizeSum ts < 256 then some (a + sizeSum ts) else none) := by
  induction ts with
  | nil =>
    intro a fuel _ hfa hf
    cases fuel with
    | zero => omega
    | succ f =>
      simp only [allocFrom, layoutFrom, sizeSum, List.map_nil, List.sum_nil, Nat.add_zero]
      by_cases hi : a < 256
      · simp [hi]
      · simp [hi]
  | cons t ts ih =>
    intro a fuel hsz hfa hf
    cases fuel with
    | zero => omega
    | succ f =>
      by_cases hi : a < 256
      · have ht : 1 ≤ t.size := hsz t (List.mem_cons_self t ts)
        have hstep : allocFrom (layoutFrom a (t :: ts)) (f + 1) a
            = allocFrom (layoutFrom a (t :: ts)) f (a + t.size) := by
          simp only [allocFrom, hi, if_true, layoutFrom, if_pos rfl]
        have hagree : allocFrom (layoutFrom a (t :: ts)) f (a + t.size)
            = allocFrom (layoutFrom (a + t.size) ts) f (a + t.size) := by
          apply allocFrom_agree
          intro j hj
          have hne : j ≠ a := by omega
          simp [layoutFrom, hne]
        rw [hstep, hagree,
          ih (a + t.size) f (fun u hu => hsz u (List.mem_cons_of_mem t hu))
            (by omega) (by omega), sizeSum_cons]
        have harith : a + t.size + sizeSum ts = a + (t.size + sizeSum ts) := by omega
        rw [harith]
      · have h1 : allocFrom (layoutFrom a (t :: ts)) (f + 1) a = some none := by
          simp [allocFrom, hi]
        have h2 : ¬(a + sizeSum (t :: ts) < 256) := by omega
        rw [h1, if_neg h2]

theorem layoutFrom_snoc (ts : List Ty) :
    ∀ (a : Nat) (t : Ty) (j : Nat), (∀ u ∈ ts, 1 ≤ u.size) →
      layoutFrom a (ts ++ [t]) j =
        (if j = a + sizeSum ts then some ⟨none, t⟩ else layoutFrom a ts j) := by
  induction ts with
  | nil =>
    intro a t j _
    simp [layoutFrom, sizeSum]
  | cons u ts ih =>
    intro a t j hsz
    have hu : 1 ≤ u.size := hsz u (List.mem_cons_self u ts)
    by_cases hj : j = a
    · subst hj
      have hs : sizeSum (u :: ts) ≠ 0 := by rw [sizeSum_cons]; omega
      simp [layoutFrom, hs]
    · have hrec := ih (a + u.size) t j (fun v hv => hsz v (List.mem_cons_of_mem u hv))
      have harith : a + u.size + sizeSum ts = a + sizeSum (u :: ts) := by
        rw [sizeSum_cons]; omega
      simp only [List.cons_append, layoutFrom, if_neg hj]
      simp only [List.append_eq]
      rw [hrec, harith]

theorem alloc_layout (ts : List Ty) (t : Ty) (hsz : ∀ u ∈ ts, 1 ≤ u.size) :
    VariableTable.alloc ⟨layoutFrom 0 ts⟩ t =
      (if sizeSum ts < 256 then
        .ok (sizeSum ts, ⟨layoutFrom 0 (ts ++ [t])⟩)
      else .err outOfSpaceMsg) := by
  unfold VariableTable.alloc
  have hscan := allocFrom_layout ts 0 257 hsz (by omega) (by omega)
  simp only [Nat.zero_add] at hscan
  rw [hscan]
  by_cases hlt : sizeSum ts < 256
  · simp only [hlt, if_true]
    have hins : VariableTable.insert ⟨layoutFrom 0 ts⟩ (sizeSum ts) ⟨none, t⟩
        = ⟨layoutFrom 0 (ts ++ [t])⟩ := by
      unfold VariableTable.insert
      congr 1
      funext j
      rw [layoutFrom_snoc ts 0 t j hsz]
      simp
    rw [hins]
  · simp [hlt]

theorem sizeSum_nil : sizeSum ([] : List Ty) = 0 := rfl

theorem sizeSum_singleton (t : Ty) : sizeSum [t] = t.size := by
  simp [sizeSum]

theorem allocSeq_layout_ok (rest : List Ty) :
    ∀ (pre : List Ty), (∀ t ∈ pre, 1 ≤ t.size) → (∀ t ∈ rest, 1 ≤ t.size) →
      (∀ k, k < rest.length → sizeSum pre + sizeSum (rest.take k) < 256) →
      allocSeq ⟨layoutFrom 0 pre⟩ rest =
        .ok ((List.range rest.length).map (fun k => sizeSum pre + sizeSum (rest.take k)),
          ⟨layoutFrom 0 (pre ++ rest)⟩) := by
  induction rest with
  | nil =>
    intro pre _ _ _
    simp [allocSeq]
  | cons t rest ih =>
    intro pre hpre hrest hlt
    have h0 : sizeSum pre < 256 := by
      have h := hlt 0 (by simp)
      rw [List.take_zero, sizeSum_nil] at h
      omega
    have hallo := alloc_layout pre t hpre
    rw [if_pos h0] at hallo
    have hpre1 : ∀ u ∈ pre ++ [t], 1 ≤ u.size := by
      intro u hu
      rcases List.mem_append.mp hu with h | h
      · exact hpre u h
      · simp at h
        exact h ▸ hrest t (List.mem_cons_self t rest)
    have hlt1 : ∀ k, k < rest.length → sizeSum (pre ++ [t]) + sizeSum (rest.take k) < 256 := by
      intro k hk
      have h := hlt (k + 1) (by simpa using Nat.succ_lt_succ hk)
      rw [List.take_succ_cons, sizeSum_cons] at h
      rw [sizeSum_append, sizeSum_singleton]
      omega
    have hrec := ih (pre ++ [t]) hpre1 (fun u hu => hrest u (List.mem_cons_of_mem t hu)) hlt1
    have htab : pre ++ [t] ++ rest = pre ++ t :: rest := by simp
    have hlist : (List.range (t :: rest).length).map
        (fun k => sizeSum pre + sizeSum ((t :: rest).take k))
        = sizeSum pre :: (List.range rest.length).map
            (fun k => sizeSum (pre ++ [t]) + sizeSum (rest.take k)) := by
      rw [List.length_cons, List.range_succ_eq_map, List.map_cons, List.map_map]
      congr 1
      apply List.map_congr_left
      intro k _
      simp only [Function.comp_apply]
      rw [List.take_succ_cons, sizeSum_cons, sizeSum_append, sizeSum_singleton]
      omega
    rw [htab] at hrec
    simp only [allocSeq, hallo, hrec, hlist]

theorem allocSeq_layout_err (rest : List Ty) :
    ∀ (pre : List Ty), (∀ t ∈ pre, 1 ≤ t.size) → (∀ t ∈ rest, 1 ≤ t.size) →
      (∃ k, k < rest.length ∧ 256 ≤ sizeSum pre + sizeSum (rest.take k)) →
      allocSeq ⟨layoutFrom 0 pre⟩ rest = .err outOfSpaceMsg := by
  induction rest with
  | nil =>
    intro pre _ _ h
    obtain ⟨k, hk, _⟩ := h
    simp at hk
  | cons t rest ih =>
    intro pre hpre hrest h
    obtain ⟨k, hk, hge⟩ := h
    have hallo := alloc_layout pre t hpre
    by_cases h0 : sizeSum pre < 256
    · rw [if_pos h0] at hallo
      have hpre1 : ∀ u ∈ pre ++ [t], 1 ≤ u.size := by
        intro u hu
        rcases List.mem_append.mp hu with hmem | hmem
        · exact hpre u hmem
        · simp at hmem
          exact hmem ▸ hrest t (List.mem_cons_self t rest)
      have hk0 : k ≠ 0 := by
        intro hk0
        subst hk0
        rw [List.take_zero, sizeSum_nil] at hge
        omega
      obtain ⟨k1, rfl⟩ := Nat.exists_eq_succ_of_ne_zero hk0
      have hge1 : 256 ≤ sizeSum (pre ++ [t]) + sizeSum (rest.take k1) := by
        rw [List.take_succ_cons, sizeSum_cons] at hge
        rw [sizeSum_append, sizeSum_singleton]
        omega
      have hrec := ih (pre ++ [t]) hpre1 (fun u hu => hrest u (List.mem_cons_of_mem t hu))
        ⟨k1, by simpa using hk, hge1⟩
      simp only [allocSeq, hallo, hrec]
    · rw [if_neg h0] at hallo
      simp only [allocSeq, hallo]

theorem sizeSum_take_le (ts : List Ty) (k : Nat) :
    sizeSum (ts.take k) ≤ sizeSum ts := by
  conv_rhs => rw [← List.take_append_drop k ts]
  rw [sizeSum_append]
  omega

theorem sizeSum_take_succ (ts : List Ty) (k : Nat) (hk : k < ts.length) :
    sizeSum (ts.take (k + 1)) = sizeSum (ts.take k) + ts[k].size := by
  rw [List.take_succ, List.getElem?_eq_getElem hk, sizeSum_append]
  simp only [Option.toList_some, sizeSum_singleton]

/-- C2, counterexample to the claim as stated: requesting sizes 255 and
then 2 on a fresh table is a sequence whose total (257) exceeds 256
bytes, yet the allocation that crosses the limit (the second one, with
interval [255, 257)) does not fail — both calls succeed, the second at
address 255. -/
theorem c2_counterexample :
    allocAddrs VariableTable.new [⟨false, 255⟩, ⟨false, 2⟩] = some [0, 255]
    ∧ 256 < sizeSum [⟨false, 255⟩, ⟨false, 2⟩]
    ∧ 256 < 255 + (⟨false, 2⟩ : Ty).size := by
  refine ⟨rfl, by decide, by decide⟩

/-- C2 (amended): on a fresh `VariableTable`, an `alloc` call fails with
the out-of-variable-space error exactly when the total of the previously
allocated sizes has already reached 256; every call whose start offset is
below 256 succeeds at that offset, even when start + size exceeds 256.
In particular (first two conjuncts) every sequence whose sizes total at
most 256 bytes fully succeeds with each interval
[address, address + size) inside [0, 256); the third conjunct is the
amended failure condition. -/
theorem c2_amended_thm :
    (∀ ts : List Ty, (∀ t ∈ ts, 1 ≤ t.size) →
      (∀ k, k < ts.length → sizeSum (ts.take k) < 256) →
      allocSeq VariableTable.new ts =
        .ok ((List.range ts.length).map (fun k => sizeSum (ts.take k)),
          ⟨layoutFrom 0 ts⟩))
    ∧ (∀ ts : List Ty, (∀ t ∈ ts, 1 ≤ t.size) → sizeSum ts ≤ 256 →
        ∀ k, k < ts.length → sizeSum (ts.take k) < 256 ∧ sizeSum (ts.take (k + 1)) ≤ 256)
    ∧ (∀ ts : List Ty, (∀ t ∈ ts, 1 ≤ t.size) →
        (∃ k, k < ts.length ∧ 256 ≤ sizeSum (ts.take k)) →
        allocSeq VariableTable.new ts = .err outOfSpaceMsg) := by
  refine ⟨?_, ?_, ?_⟩
  · intro ts hsz hlt
    have h := allocSeq_layout_ok ts [] (by simp) hsz
      (by intro k hk; rw [sizeSum_nil]; simpa using hlt k hk)
    simpa [sizeSum_nil] using h
  · intro ts hsz htot k hk
    have hmem : ts[k] ∈ ts := List.getElem_mem hk
    have h1 : 1 ≤ ts[k].size := hsz _ hmem
    have hsucc := sizeSum_take_succ ts k hk
    have hle : sizeSum (ts.take (k + 1)) ≤ sizeSum ts := sizeSum_take_le ts (k + 1)
    omega
  · intro ts hsz hex
    have h := allocSeq_layout_err ts [] (by simp) hsz
      (by obtain ⟨k, hk, hge⟩ := hex; exact ⟨k, hk, by rw [sizeSum_nil]; omega⟩)
    simpa using h

/-- C2, witness: allocating two 1-byte types through the amended theorem
succeeds at addresses 0 and 1. -/
theorem c2_witness :
    allocSeq VariableTable.new [(⟨false, 1⟩ : Ty), ⟨false, 1⟩] =
      .ok ([0, 1], ⟨layoutFrom 0 [⟨false, 1⟩, ⟨false, 1⟩]⟩) := by
  have h := c2_amended_thm.1 [⟨false, 1⟩, ⟨false, 1⟩]
    (by decide)
    (by intro k hk; simp only [List.length_cons, List.length_nil] at hk; interval_cases k <;> decide)
  have hlist : (List.range ([(⟨false, 1⟩ : Ty), ⟨false, 1⟩]).length).map
      (fun k => sizeSum (([(⟨false, 1⟩ : Ty), ⟨false, 1⟩]).take k)) = [0, 1] := by decide
  rw [hlist] at h
  exact h

/-- C9: `Type::from` (promotion) computes the or of the signednesses and
the maximum of the sizes; it is commutative and idempotent. -/
theorem c9_thm :
    (∀ l r : Ty, Ty.promote l r = ⟨l.signed || r.signed, max l.size r.size⟩)
    ∧ (∀ l r : Ty, Ty.promote l r = Ty.promote r l)
    ∧ (∀ t : Ty, Ty.promote t t = t) := by
  refine ⟨?_, ?_, ?_⟩
  · intro l r
    simp only [Ty.promote, Ty.mk.injEq, true_and]
    by_cases h : l.size ≥ r.size
    · rw [if_pos h]; omega
    · rw [if_neg h]; omega
  · intro l r
    simp only [Ty.promote, Ty.mk.injEq]
    constructor
    · exact Bool.or_comm l.signed r.signed
    · by_cases h : l.size ≥ r.size
      · rw [if_pos h]
        by_cases h2 : r.size ≥ l.size
        · rw [if_pos h2]; omega
        · rw [if_neg h2]
      · rw [if_neg h]
        rw [if_pos (by omega : r.size ≥ l.size)]
  · intro t
    simp [Ty.promote]

/-- C6: lowering the expression 3 + 4 (two `Number` operands of a binary
`Add` under the default unsigned 1-byte type) through
`compile_expression` emits exactly two `put` instructions followed by
one `add_u8` instruction whose destination slot 2 differs from both
operand slots 0 and 1; building the same expression with
`Expr::binary_op` folds it at construction time to the single terminal
`Number(7)`, whose lowering emits one `put` and no `add_u8`. -/
theorem c6_thm :
    runLines (compileExpr Environment.std stdTypeTable 10
        (.add (.signed 3) (.signed 4)) VariableTable.new) =
      some (some 2,
        [ .db "std@put_u8" [0, 3]
        , .db "std@put_u8" [1, 4]
        , .db "std@add_u8" [2, 0, 1] ])
    ∧ (2 : Nat) ≠ 0 ∧ (2 : Nat) ≠ 1
    ∧ Expr.binaryOp ⟨[.number 3]⟩ ⟨[.number 4]⟩ Op.add (fun p q => p + q) = ⟨[.number 7]⟩
    ∧ runLines (compileExpr Environment.std stdTypeTable 10 (.signed 7)
        VariableTable.new) =
      some (some 0, [.db "std@put_u8" [0, 7]]) := by
  refine ⟨rfl, by decide, by decide, rfl, rfl⟩

/-- C7, counterexample to the claim as stated: in the standard
environment, lowering `Not(x)` does not emit a resolved xor
instruction — the requested opcode name is `xor_u8`, which `std` does not
define (its binary-xor family is `bxor_u8`), so the lowering fails with
an unknown-definition error. -/
theorem c7_counterexample :
    compileExpr Environment.std stdTypeTable 10 (.not (.signed 5)) VariableTable.new =
      .err "Definition of xor_u8 not found" := rfl

/-- C7 (amended): lowering `Not(x)` compiles it as `x xor 0xFF` — it
lowers `x`, materializes 255 into a freshly allocated slot of `x`'s type
via a `put`, and emits one instruction named `xor_<type>`; this succeeds
exactly when the ambient environment resolves `xor_<type>` (the standard
environment defines `bxor_<type>` instead, so `Not` fails there), and
then the xor writes into a fresh result slot, distinct from the operand
and the constant slot, which is yielded. -/
theorem c7_thm (fuel : Nat) (env : Environment) (tt : TypeTable)
    (vt vt1 vt2 vt3 : VariableTable) (x : Rpn) (operand ffSlot resSlot : Nat)
    (lines1 : List Line) (t : Ty) (putName xorName : String)
    (hx : compileExpr env tt fuel x vt = .ok (some operand, vt1, lines1))
    (ht : vt1.typeOf operand = .ok t)
    (hff : vt1.alloc t = .ok (ffSlot, vt2))
    (hres : vt2.alloc t = .ok (resSlot, vt3))
    (hput : env.expand (fuel + 1) ("put_" ++ t.fmt) = .ok putName)
    (hxor : env.expand (fuel + 1) ("xor_" ++ t.fmt) = .ok xorName) :
    compileExpr env tt (fuel + 1) (.not x) vt =
      .ok (some resSlot, vt3,
        lines1 ++ [.db putName [(ffSlot : Int), 255],
          .db xorName [(resSlot : Int), (operand : Int), (ffSlot : Int)]])
    ∧ ffSlot ≠ operand ∧ resSlot ≠ operand ∧ resSlot ≠ ffSlot := by
  have hop : vt1.vars operand ≠ none := by
    unfold VariableTable.typeOf at ht
    cases h : vt1.vars operand with
    | none => rw [h] at ht; exact absurd ht (by simp)
    | some v => simp [h]
  obtain ⟨hffnone, hvt2⟩ := alloc_ok_inv vt1 t ffSlot vt2 hff
  obtain ⟨hresnone, hvt3⟩ := alloc_ok_inv vt2 t resSlot vt3 hres
  have hffop : ffSlot ≠ operand := fun he => hop (he ▸ hffnone)
  have hresff : resSlot ≠ ffSlot := by
    intro he
    rw [hvt2] at hresnone
    simp [VariableTable.insert, he] at hresnone
  have hresop : resSlot ≠ operand := by
    intro he
    subst he
    rw [hvt2] at hresnone
    unfold VariableTable.insert at hresnone
    simp only at hresnone
    rw [if_neg (fun hh => hffop hh.symm)] at hresnone
    exact hop hresnone
  refine ⟨?_, hffop, hresop, hresff⟩
  simp only [compileExpr]
  rw [hx]
  dsimp only
  rw [ht]
  dsimp only
  rw [hff]
  dsimp only
  rw [hres]
  dsimp only
  rw [hput]
  dsimp only
  rw [hxor]

/-- C7, witness: in an environment that does define `xor_u8` directly,
lowering `Not(5)` emits the operand's `put`, the constant `put` of 255,
and the resolved xor into the fresh slot 2. -/
theorem c7_witness :
    compileExpr c7Env stdTypeTable 2 (.not (.signed 5)) VariableTable.new =
      .ok (some 2,
        ((VariableTable.new.insert 0 ⟨none, ⟨false, 1⟩⟩).insert 1
            ⟨none, ⟨false, 1⟩⟩).insert 2 ⟨none, ⟨false, 1⟩⟩,
        [ .db "e@put_u8" [0, 5]
        , .db "e@put_u8" [1, 255]
        , .db "e@xor_u8" [2, 0, 1] ])
    ∧ (1 : Nat) ≠ 0 ∧ (2 : Nat) ≠ 0 ∧ (2 : Nat) ≠ 1 :=
  c7_thm 1 c7Env stdTypeTable VariableTable.new
    (VariableTable.new.insert 0 ⟨none, ⟨false, 1⟩⟩)
    ((VariableTable.new.insert 0 ⟨none, ⟨false, 1⟩⟩).insert 1 ⟨none, ⟨false, 1⟩⟩)
    (((VariableTable.new.insert 0 ⟨none, ⟨false, 1⟩⟩).insert 1
        ⟨none, ⟨false, 1⟩⟩).insert 2 ⟨none, ⟨false, 1⟩⟩)
    (.signed 5) 0 1 2 [.db "e@put_u8" [0, 5]] ⟨false, 1⟩ "e@put_u8" "e@xor_u8"
    rfl rfl rfl rfl rfl rfl

theorem lookup_ok_alias (env : Environment) (name : String) (al : Alias)
    (h : env.lookup name = .ok (.Alias al)) :
    aliasTarget env name = some al.target ∧ chainStep env name = al.target := by
  unfold Environment.lookup at h
  unfold aliasTarget chainStep aliasTarget
  cases hd : env.definitions.lookup name with
  | none => rw [hd] at h; exact absurd h (by simp)
  | some d =>
    rw [hd] at h
    simp at h
    subst h
    simp

/-- C10: `Environment::expand` follows alias chains with no cycle
detection.  First conjunct: whenever the alias chain from `name` reaches
a non-alias within `n` steps (acyclicity at `name`), the fueled
translation converges with fuel `n + 1` — the source recursion
terminates.  Second conjunct: on a cyclic alias pair the translation
exhausts any amount of fuel — the source recursion diverges, so
acyclicity is a required precondition for totality. -/
theorem c10_thm :
    (∀ (env : Environment) (name : String) (n : Nat),
      aliasTarget env (chainAt env name n) = none →
      env.expand (n + 1) name ≠ .stuck)
    ∧ (∀ fuel : Nat, cyclicEnv.expand fuel "a" = .stuck) := by
  constructor
  · intro env name n
    induction n generalizing name with
    | zero =>
      intro h
      simp only [Environment.expand]
      cases hl : env.lookup name with
      | error e => simp
      | ok d =>
        cases d with
        | Def _ => simp
        | Mac _ => simp
        | Alias al =>
          have := (lookup_ok_alias env name al hl).1
          rw [show chainAt env name 0 = name from rfl] at h
          rw [this] at h
          exact absurd h (by simp)
    | succ n ih =>
      intro h
      simp only [Environment.expand]
      cases hl : env.lookup name with
      | error e => simp
      | ok d =>
        cases d with
        | Def _ => simp
        | Mac _ => simp
        | Alias al =>
          have hstep := (lookup_ok_alias env name al hl).2
          have hchain : chainAt env name (n + 1) = chainAt env al.target n := by
            show chainAt env (chainStep env name) n = chainAt env al.target n
            rw [hstep]
          rw [hchain] at h
          exact ih al.target h
  · have haux : ∀ fuel : Nat,
        cyclicEnv.expand fuel "a" = .stuck ∧ cyclicEnv.expand fuel "b" = .stuck := by
      intro fuel
      induction fuel with
      | zero => exact ⟨rfl, rfl⟩
      | succ fuel ih =>
        constructor
        · show cyclicEnv.expand fuel "b" = .stuck
          exact ih.2
        · show cyclicEnv.expand fuel "a" = .stuck
          exact ih.1
    exact fun fuel => (haux fuel).1

/-- C10, witness: the standard environment's `add_i8` chain ends after
one alias step, and `expand` with fuel 2 indeed converges on it. -/
theorem c10_witness :
    aliasTarget Environment.std (chainAt Environment.std "add_i8" 1) = none
    ∧ Environment.std.expand 2 "add_i8" ≠ .stuck :=
  ⟨rfl, c10_thm.1 Environment.std "add_i8" 1 rfl⟩

/-- C8: resolving an alias call's substitution list fails with the
argument-ID-too-large error exactly when some placeholder entry exceeds
the count of just-lowered local argument slots (first conjunct, for
1-based placeholder entries as the alias syntax produces); when every
placeholder is in range, the emitted operand list substitutes the i-th
(1-based) local slot for placeholder i and passes sub-expression slots
through (second conjunct); the third conjunct runs a whole alias call
whose placeholder 2 exceeds its single-argument count through
`compile_expression`. -/
theorem c8_thm :
    (∀ (argIds : List Nat) (als : List AliasVariant),
      (∀ i, AliasVariant.argId i ∈ als → 1 ≤ i) →
      ((∃ e, emitAliasArgs argIds als = .err e) ↔
        ∃ i, AliasVariant.argId i ∈ als ∧ argIds.length < i))
    ∧ (∀ (argIds : List Nat) (als : List AliasVariant),
      (∀ i, AliasVariant.argId i ∈ als → 1 ≤ i ∧ i ≤ argIds.length) →
      emitAliasArgs argIds als = .ok (als.map (fun v =>
        match v with
        | .expressionId n => (n : Int)
        | .argId i => ((argIds.getD (i - 1) 0 : Nat) : Int))))
    ∧ compileExpr c8Env stdTypeTable 10 (.call "a" [.signed 1]) VariableTable.new =
        .err "Argument ID is too large (2)" := by
  refine ⟨?_, ?_, rfl⟩
  · intro argIds als
    induction als with
    | nil =>
      intro _
      constructor
      · rintro ⟨e, he⟩
        simp [emitAliasArgs] at he
      · rintro ⟨i, hmem, _⟩
        simp at hmem
    | cons v rest ih =>
      intro h1
      have h1r : ∀ i, AliasVariant.argId i ∈ rest → 1 ≤ i :=
        fun i hi => h1 i (List.mem_cons_of_mem v hi)
      cases v with
      | expressionId m =>
        constructor
        · rintro ⟨e, he⟩
          simp only [emitAliasArgs] at he
          cases hrec : emitAliasArgs argIds rest with
          | err e2 =>
            obtain ⟨i, hmem, hgt⟩ := (ih h1r).mp ⟨e2, hrec⟩
            exact ⟨i, List.mem_cons_of_mem _ hmem, hgt⟩
          | stuck => rw [hrec] at he; exact absurd he (by simp)
          | ok l => rw [hrec] at he; exact absurd he (by simp)
        · rintro ⟨i, hmem, hgt⟩
          have hmem2 : AliasVariant.argId i ∈ rest := by
            rcases List.mem_cons.mp hmem with hh | hh
            · exact absurd hh (by simp)
            · exact hh
          obtain ⟨e, he⟩ := (ih h1r).mpr ⟨i, hmem2, hgt⟩
          refine ⟨e, ?_⟩
          simp only [emitAliasArgs, he]
      | argId m =>
        have hm1 : 1 ≤ m := h1 m (List.mem_cons_self _ _)
        by_cases hgt : m > argIds.length
        · constructor
          · intro _
            exact ⟨m, List.mem_cons_self _ _, hgt⟩
          · intro _
            exact ⟨"Argument ID is too large (" ++ toString m ++ ")", by
              simp only [emitAliasArgs, if_pos hgt]⟩
        · obtain ⟨j, rfl⟩ := Nat.exists_eq_succ_of_ne_zero (by omega : m ≠ 0)
          have hj : j < argIds.length := by omega
          have hget : argIds.get? j = some argIds[j] := List.get?_eq_get hj
          constructor
          · rintro ⟨e, he⟩
            simp only [emitAliasArgs, if_neg hgt, hget] at he
            cases hrec : emitAliasArgs argIds rest with
            | err e2 =>
              obtain ⟨i, hmem, hgt2⟩ := (ih h1r).mp ⟨e2, hrec⟩
              exact ⟨i, List.mem_cons_of_mem _ hmem, hgt2⟩
            | stuck => rw [hrec] at he; exact absurd he (by simp)
            | ok l => rw [hrec] at he; exact absurd he (by simp)
          · rintro ⟨i, hmem, hgt2⟩
            have hmem2 : AliasVariant.argId i ∈ rest := by
              rcases List.mem_cons.mp hmem with hh | hh
              · have : i = j + 1 := by
                  simpa using hh
                omega
              · exact hh
            obtain ⟨e, he⟩ := (ih h1r).mpr ⟨i, hmem2, hgt2⟩
            refine ⟨e, ?_⟩
            simp only [emitAliasArgs, if_neg hgt, hget, he]
  · intro argIds als
    induction als with
    | nil => intro _; rfl
    | cons v rest ih =>
      intro h1
      have h1r : ∀ i, AliasVariant.argId i ∈ rest → 1 ≤ i ∧ i ≤ argIds.length :=
        fun i hi => h1 i (List.mem_cons_of_mem v hi)
      have hrec := ih h1r
      cases v with
      | expressionId m =>
        simp only [emitAliasArgs, hrec, List.map_cons]
      | argId m =>
        obtain ⟨hm1, hmle⟩ := h1 m (List.mem_cons_self _ _)
        have hngt : ¬(m > argIds.length) := by omega
        obtain ⟨j, rfl⟩ := Nat.exists_eq_succ_of_ne_zero (by omega : m ≠ 0)
        have hj : j < argIds.length := by omega
        have hget : argIds.get? j = some argIds[j] := List.get?_eq_get hj
        simp only [emitAliasArgs, if_neg hngt, hget, hrec, List.map_cons]
        have hgd : argIds.getD (j + 1 - 1) 0 = argIds[j] := by
          simp [List.getD_eq_getElem?_getD, List.getElem?_eq_getElem hj]
        rw [hgd]

/-- C8, witness: a substitution list mixing an expression slot and the
in-range placeholder 2 over two local slots emits the expression slot
and the second local slot. -/
theorem c8_witness :
    emitAliasArgs [7, 8] [.expressionId 5, .argId 2] = .ok [5, 8] := by
  have h := c8_thm.2.1 [7, 8] [.expressionId 5, .argId 2]
    (by
      intro i hi
      simp only [List.mem_cons, List.mem_singleton] at hi
      rcases hi with hh | hh | hh
      · exact absurd hh (by simp)
      · have h2 : i = 2 := by simpa using hh
        subst h2
        exact ⟨by omega, by decide⟩
      · simp at hh)
  simpa using h

/-- C3: with the size expression constant-folding to `v`, the rewritten
environment builder rejects a pool size that is negative or greater than
65534 and otherwise records it (as the `NonZeroU16` encoding `v + 1`,
decoded back to `v` when the environment is finished); in particular
`pool 65534` succeeds and `pool 65535` fails. -/
theorem c3_thm :
    (∀ (envs : List (Ident × EnvsRs.Env)) (st : EnvsRs.PState) (v : Int), v < 0 →
      EnvsRs.process_stmt envs st (.pool (some v)) = .error .poolNegative)
    ∧ (∀ (envs : List (Ident × EnvsRs.Env)) (st : EnvsRs.PState) (v : Int), 65534 < v →
      EnvsRs.process_stmt envs st (.pool (some v)) = .error (.poolTooLarge v))
    ∧ (∀ (envs : List (Ident × EnvsRs.Env)) (funcs : EnvsRs.Funcs) (id : Nat) (v : Int),
      0 ≤ v → v ≤ 65534 →
      EnvsRs.process_stmt envs ⟨funcs, none, id⟩ (.pool (some v)) =
        .ok ⟨funcs, some (v.toNat + 1), id⟩)
    ∧ (∀ (envs : List (Ident × EnvsRs.Env)) (v : Int), 0 ≤ v → v ≤ 65534 →
      EnvsRs.collectEnvBody envs [.pool (some v)] = .ok ⟨[], v.toNat⟩)
    ∧ EnvsRs.collectEnvBody [] [.pool (some 65534)] = .ok ⟨[], 65534⟩
    ∧ EnvsRs.collectEnvBody [] [.pool (some 65535)] = .error (.poolTooLarge 65535) := by
  have hok : ∀ (envs : List (Ident × EnvsRs.Env)) (funcs : EnvsRs.Funcs) (id : Nat) (v : Int),
      0 ≤ v → v ≤ 65534 →
      EnvsRs.process_stmt envs ⟨funcs, none, id⟩ (.pool (some v)) =
        .ok ⟨funcs, some (v.toNat + 1), id⟩ := by
    intro envs funcs id v h0 h1
    simp only [EnvsRs.process_stmt, EnvsRs.maxPoolSize]
    rw [if_neg (by omega), if_neg (by omega)]
    rfl
  refine ⟨?_, ?_, hok, ?_, rfl, rfl⟩
  · intro envs st v hv
    simp only [EnvsRs.process_stmt, EnvsRs.maxPoolSize]
    rw [if_neg (by omega), if_pos hv]
  · intro envs st v hv
    simp only [EnvsRs.process_stmt, EnvsRs.maxPoolSize]
    rw [if_pos hv]
  · intro envs v h0 h1
    simp only [EnvsRs.collectEnvBody, EnvsRs.processStmts, hok envs [] 0 v h0 h1]
    simp

/-- C3, witness: the three parameterized conjuncts at `-1`, `70000` and
`12`. -/
theorem c3_witness :
    EnvsRs.process_stmt [] ⟨[], none, 0⟩ (.pool (some (-1))) = .error .poolNegative
    ∧ EnvsRs.process_stmt [] ⟨[], none, 0⟩ (.pool (some 70000)) =
        .error (.poolTooLarge 70000)
    ∧ EnvsRs.collectEnvBody [] [.pool (some 12)] = .ok ⟨[], 12⟩ :=
  ⟨c3_thm.1 [] ⟨[], none, 0⟩ (-1) (by decide),
   c3_thm.2.1 [] ⟨[], none, 0⟩ 70000 (by decide),
   c3_thm.2.2.2.1 [] 12 (by decide) (by decide)⟩

theorem define_func_err_shape (funcs : EnvsRs.Funcs) (name : Ident)
    (args : List EnvsRs.DefParam) (kind : EnvsRs.FuncKind) (e : EnvsRs.Diag)
    (h : EnvsRs.define_func funcs name args kind = .error e) :
    e ≠ .poolRedefinition := by
  rcases kind with id | ⟨t, ta⟩ | t
  · simp only [EnvsRs.define_func] at h
    cases hfc : EnvsRs.findClash funcs id with
    | some o =>
      rw [hfc] at h
      simp at h
      simp [h.symm]
    | none =>
      rw [hfc] at h
      by_cases hs : (funcs.lookup name).isSome
      · rw [if_pos hs] at h
        simp at h
        simp [h.symm]
      · rw [if_neg hs] at h
        exact absurd h (by simp)
  · simp only [EnvsRs.define_func] at h
    by_cases hs : (funcs.lookup name).isSome
    · rw [if_pos hs] at h
      simp at h
      simp [h.symm]
    · rw [if_neg hs] at h
      exact absurd h (by simp)
  · simp only [EnvsRs.define_func] at h
    by_cases hs : (funcs.lookup name).isSome
    · rw [if_pos hs] at h
      simp at h
      simp [h.symm]
    · rw [if_neg hs] at h
      exact absurd h (by simp)

theorem defineAll_err_shape (src : EnvsRs.Funcs) :
    ∀ (funcs : EnvsRs.Funcs) (e : EnvsRs.Diag),
      EnvsRs.defineAll funcs src = .error e → e ≠ .poolRedefinition := by
  induction src with
  | nil => intro funcs e h; exact absurd h (by simp [EnvsRs.defineAll])
  | cons p rest ih =>
    intro funcs e h
    obtain ⟨name, f⟩ := p
    simp only [EnvsRs.defineAll] at h
    cases hd : EnvsRs.define_func funcs name f.args f.kind with
    | error e2 =>
      rw [hd] at h
      simp at h
      exact h ▸ define_func_err_shape funcs name f.args f.kind e2 hd
    | ok funcs1 =>
      rw [hd] at h
      exact ih funcs1 e h

theorem process_stmt_nonpool (envs : List (Ident × EnvsRs.Env)) (st : EnvsRs.PState)
    (stmt : EnvsRs.EnvStatementKind) (hnp : ∀ ev, stmt ≠ .pool ev) :
    (∀ e, EnvsRs.process_stmt envs st stmt = .error e → e ≠ .poolRedefinition)
    ∧ (∀ st1, EnvsRs.process_stmt envs st stmt = .ok st1 → st1.pool_size = st.pool_size) := by
  rcases stmt with ⟨name, args, kind⟩ | target | ev
  · constructor
    · intro e h
      rcases kind with _ | ⟨t, ta⟩ | t
      all_goals
        simp only [EnvsRs.process_stmt] at h
      · cases hd : EnvsRs.define_func st.funcs name args (.normal st.id) with
        | error e2 =>
          rw [hd] at h; simp at h
          exact h ▸ define_func_err_shape _ _ _ _ _ hd
        | ok f1 => rw [hd] at h; exact absurd h (by simp)
      · cases hd : EnvsRs.define_func st.funcs name args (.alias t ta) with
        | error e2 =>
          rw [hd] at h; simp at h
          exact h ▸ define_func_err_shape _ _ _ _ _ hd
        | ok f1 => rw [hd] at h; exact absurd h (by simp)
      · cases hd : EnvsRs.define_func st.funcs name args (.mac t) with
        | error e2 =>
          rw [hd] at h; simp at h
          exact h ▸ define_func_err_shape _ _ _ _ _ hd
        | ok f1 => rw [hd] at h; exact absurd h (by simp)
    · intro st1 h
      rcases kind with _ | ⟨t, ta⟩ | t
      all_goals
        simp only [EnvsRs.process_stmt] at h
      · cases hd : EnvsRs.define_func st.funcs name args (.normal st.id) with
        | error e2 => rw [hd] at h; exact absurd h (by simp)
        | ok f1 => rw [hd] at h; simp at h; rw [← h]
      · cases hd : EnvsRs.define_func st.funcs name args (.alias t ta) with
        | error e2 => rw [hd] at h; exact absurd h (by simp)
        | ok f1 => rw [hd] at h; simp at h; rw [← h]
      · cases hd : EnvsRs.define_func st.funcs name args (.mac t) with
        | error e2 => rw [hd] at h; exact absurd h (by simp)
        | ok f1 => rw [hd] at h; simp at h; rw [← h]
  · constructor
    · intro e h
      simp only [EnvsRs.process_stmt] at h
      cases ht : envs.lookup target with
      | none => rw [ht] at h; simp at h; simp [h.symm]
      | some tenv =>
        rw [ht] at h
        dsimp only at h
        cases hd : EnvsRs.defineAll st.funcs tenv.funcs with
        | error e2 =>
          rw [hd] at h; simp at h
          exact h ▸ defineAll_err_shape tenv.funcs st.funcs e2 hd
        | ok f1 => rw [hd] at h; exact absurd h (by simp)
    · intro st1 h
      simp only [EnvsRs.process_stmt] at h
      cases ht : envs.lookup target with
      | none => rw [ht] at h; exact absurd h (by simp)
      | some tenv =>
        rw [ht] at h
        dsimp only at h
        cases hd : EnvsRs.defineAll st.funcs tenv.funcs with
        | error e2 => rw [hd] at h; exact absurd h (by simp)
        | ok f1 => rw [hd] at h; simp at h; rw [← h]
  · exact absurd rfl (hnp ev)

theorem noPool_no_redef (envs : List (Ident × EnvsRs.Env))
    (stmts : List EnvsRs.EnvStatementKind) :
    EnvsRs.countPools stmts = 0 →
    ∀ st, EnvsRs.processStmts envs stmts st ≠ .error .poolRedefinition := by
  induction stmts with
  | nil => intro _ st h; exact absurd h (by simp [EnvsRs.processStmts])
  | cons stmt rest ih =>
    intro hc st h
    have hnp : ∀ ev, stmt ≠ .pool ev := by
      intro ev he
      subst he
      simp [EnvsRs.countPools] at hc
    have hc0 : EnvsRs.countPools rest = 0 := by
      rcases stmt with ⟨n, a, k⟩ | t | ev
      · simpa [EnvsRs.countPools] using hc
      · simpa [EnvsRs.countPools] using hc
      · exact absurd rfl (hnp ev)
    simp only [EnvsRs.processStmts] at h
    cases hd : EnvsRs.process_stmt envs st stmt with
    | error e =>
      rw [hd] at h
      simp at h
      exact (process_stmt_nonpool envs st stmt hnp).1 e hd (by simp [h.symm])
    | ok st1 =>
      rw [hd] at h
      exact ih hc0 st1 h

theorem onePool_no_redef (envs : List (Ident × EnvsRs.Env))
    (stmts : List EnvsRs.EnvStatementKind) :
    EnvsRs.countPools stmts ≤ 1 →
    ∀ st, st.pool_size = none →
      EnvsRs.processStmts envs stmts st ≠ .error .poolRedefinition := by
  induction stmts with
  | nil => intro _ st _ h; exact absurd h (by simp [EnvsRs.processStmts])
  | cons stmt rest ih =>
    intro hc st hps h
    simp only [EnvsRs.processStmts] at h
    rcases hstmt : stmt with ⟨n, a, k⟩ | t | ev
    · subst hstmt
      have hc1 : EnvsRs.countPools rest ≤ 1 := by
        simpa [EnvsRs.countPools] using hc
      cases hd : EnvsRs.process_stmt envs st (.defStmt n a k) with
      | error e =>
        rw [hd] at h
        simp at h
        exact (process_stmt_nonpool envs st _ (by intro ev he; cases he)).1 e hd
          (by simp [h.symm])
      | ok st1 =>
        rw [hd] at h
        have hps1 : st1.pool_size = none :=
          ((process_stmt_nonpool envs st _ (by intro ev he; cases he)).2 st1 hd).trans hps
        exact ih hc1 st1 hps1 h
    · subst hstmt
      have hc1 : EnvsRs.countPools rest ≤ 1 := by
        simpa [EnvsRs.countPools] using hc
      cases hd : EnvsRs.process_stmt envs st (.use t) with
      | error e =>
        rw [hd] at h
        simp at h
        exact (process_stmt_nonpool envs st _ (by intro ev he; cases he)).1 e hd
          (by simp [h.symm])
      | ok st1 =>
        rw [hd] at h
        have hps1 : st1.pool_size = none :=
          ((process_stmt_nonpool envs st _ (by intro ev he; cases he)).2 st1 hd).trans hps
        exact ih hc1 st1 hps1 h
    · subst hstmt
      have hc0 : EnvsRs.countPools rest = 0 := by
        simp only [EnvsRs.countPools] at hc
        omega
      cases ev with
      | none =>
        simp only [EnvsRs.process_stmt] at h
        exact absurd h (by simp)
      | some v =>
        simp only [EnvsRs.process_stmt] at h
        by_cases h1 : v > EnvsRs.maxPoolSize
        · rw [if_pos h1] at h; exact absurd h (by simp)
        · rw [if_neg h1] at h
          by_cases h2 : v < 0
          · rw [if_pos h2] at h; exact absurd h (by simp)
          · rw [if_neg h2] at h
            rw [hps] at h
            simp at h
            exact noPool_no_redef envs rest hc0 _ h

theorem processStmts_append (envs : List (Ident × EnvsRs.Env))
    (xs ys : List EnvsRs.EnvStatementKind) :
    ∀ st, EnvsRs.processStmts envs (xs ++ ys) st =
      match EnvsRs.processStmts envs xs st with
      | .error e => .error e
      | .ok st1 => EnvsRs.processStmts envs ys st1 := by
  induction xs with
  | nil => intro st; rfl
  | cons stmt rest ih =>
    intro st
    simp only [List.cons_append, EnvsRs.processStmts]
    cases hd : EnvsRs.process_stmt envs st stmt with
    | error e => rfl
    | ok st1 => exact ih st1

/-- C5: once a first `Pool` statement has been recorded, a second `Pool`
whose value is in range fails with the pool-redefinition diagnostic at
that occurrence, whatever follows it; and a body with at most one `Pool`
statement can never fail with that diagnostic. -/
theorem c5_thm :
    (∀ (envs : List (Ident × EnvsRs.Env)) (pre rest : List EnvsRs.EnvStatementKind)
      (v2 : Int) (funcs : EnvsRs.Funcs) (ps id : Nat),
      EnvsRs.processStmts envs pre ⟨[], none, 0⟩ = .ok ⟨funcs, some ps, id⟩ →
      0 ≤ v2 → v2 ≤ 65534 →
      EnvsRs.processStmts envs (pre ++ .pool (some v2) :: rest) ⟨[], none, 0⟩ =
        .error .poolRedefinition)
    ∧ (∀ (envs : List (Ident × EnvsRs.Env)) (stmts : List EnvsRs.EnvStatementKind),
      EnvsRs.countPools stmts ≤ 1 →
      EnvsRs.processStmts envs stmts ⟨[], none, 0⟩ ≠ .error .poolRedefinition) := by
  constructor
  · intro envs pre rest v2 funcs ps id hpre h0 h1
    rw [processStmts_append, hpre]
    simp only [EnvsRs.processStmts, EnvsRs.process_stmt, EnvsRs.maxPoolSize]
    rw [if_neg (by omega), if_neg (by omega)]
    rfl
  · intro envs stmts hc
    exact onePool_no_redef envs stmts hc ⟨[], none, 0⟩ rfl

/-- C5, witness: `pool 3; pool 4` fails at the second occurrence, and a
single-pool body does not produce the redefinition diagnostic. -/
theorem c5_witness :
    EnvsRs.processStmts [] [.pool (some 3), .pool (some 4)] ⟨[], none, 0⟩ =
      .error .poolRedefinition
    ∧ EnvsRs.processStmts [] [.pool (some 9)] ⟨[], none, 0⟩ ≠
        .error .poolRedefinition :=
  ⟨c5_thm.1 [] [.pool (some 3)] [] 4 [] 4 0 rfl (by decide) (by decide),
   c5_thm.2 [] [.pool (some 9)] (by decide)⟩

theorem insertDef_lookup_self (m : List (String × Definition)) (k : String) (v : Definition) :
    (insertDef m k v).lookup k = some v := by
  induction m with
  | nil => simp [insertDef, List.lookup]
  | cons p rest ih =>
    obtain ⟨k1, v1⟩ := p
    by_cases h : k1 = k
    · simp [insertDef, h, List.lookup]
    · rw [insertDef, if_neg h, List.lookup]
      rw [show (k == k1) = false from beq_eq_false_iff_ne.mpr (Ne.symm h)]
      exact ih

theorem insertDef_lookup_other (m : List (String × Definition)) (k : String) (v : Definition)
    (k2 : String) (h : k2 ≠ k) :
    (insertDef m k v).lookup k2 = m.lookup k2 := by
  induction m with
  | nil =>
    simp only [insertDef, List.lookup]
    rw [show (k2 == k) = false from beq_eq_false_iff_ne.mpr h]
  | cons p rest ih =>
    obtain ⟨k1, v1⟩ := p
    by_cases h1 : k1 = k
    · subst h1
      rw [insertDef, if_pos rfl, List.lookup, List.lookup]
      rw [show (k2 == k1) = false from beq_eq_false_iff_ne.mpr h]
    · rw [insertDef, if_neg h1, List.lookup, List.lookup]
      by_cases h2 : k2 = k1
      · rw [show (k2 == k1) = true from beq_iff_eq.mpr h2]
      · rw [show (k2 == k1) = false from beq_eq_false_iff_ne.mpr h2]
        exact ih

theorem rebaseDef_nonDef (b : Nat) (d : Definition) (h : ∀ s, d ≠ .Def s) :
    rebaseDef b d = d := by
  cases d with
  | Def s => exact absurd rfl (h s)
  | Alias al => rfl
  | Mac m => rfl

theorem processUseDefs_spec (otherDefs : List (String × Definition)) :
    ∀ (st : EnvBuild) (greatest b : Nat) (thisName : String),
      (otherDefs.map Prod.fst).Nodup →
      (∀ p ∈ otherDefs, ∀ s, p.2 = Definition.Def s → b + s.bytecode ≤ 255) →
      ∃ st1, processUseDefs thisName b otherDefs st greatest =
          .ok (st1, rebasedMax b greatest otherDefs)
        ∧ (∀ name, name ∉ otherDefs.map Prod.fst →
            st1.definitions.lookup name = st.definitions.lookup name)
        ∧ (∀ name d, (name, d) ∈ otherDefs →
            st1.definitions.lookup name = some (rebaseDef b d))
        ∧ st1.warnings = st.warnings ++
            (otherDefs.filter (fun p => (st.definitions.lookup p.1).isSome)).map
              (fun p => useDupWarning p.1)
        ∧ st1.bytecodeIndex = st.bytecodeIndex
        ∧ st1.pool = st.pool := by
  induction otherDefs with
  | nil =>
    intro st greatest b thisName _ _
    exact ⟨st, rfl, fun _ _ => rfl, fun _ _ h => absurd h (by simp), by simp, rfl, rfl⟩
  | cons p rest ih =>
    intro st greatest b thisName hnodup hfit
    obtain ⟨n, d⟩ := p
    have hnotin : n ∉ rest.map Prod.fst := by
      simp only [List.map_cons, List.nodup_cons] at hnodup
      exact hnodup.1
    have hnodup1 : (rest.map Prod.fst).Nodup := by
      simp only [List.map_cons, List.nodup_cons] at hnodup
      exact hnodup.2
    have hfit1 : ∀ p ∈ rest, ∀ s, p.2 = Definition.Def s → b + s.bytecode ≤ 255 :=
      fun p hp => hfit p (List.mem_cons_of_mem _ hp)
    -- the state after copying the head definition
    cases d with
    | Def s =>
      have hle : b + s.bytecode ≤ 255 := hfit (n, .Def s) (List.mem_cons_self _ _) s rfl
      have hchk : checkedAddU8 b s.bytecode = some (b + s.bytecode) := by
        simp [checkedAddU8, hle]
      set warnings1 :=
        (if (st.definitions.lookup n).isSome then
          st.warnings ++ [useDupWarning n]
        else st.warnings) with hw1
      set st' : EnvBuild :=
        { definitions := insertDef st.definitions n (.Def ⟨s.args, b + s.bytecode⟩)
          pool := st.pool
          bytecodeIndex := st.bytecodeIndex
          warnings := warnings1
          output := st.output ++ [⟨thisName, n, b + s.bytecode⟩] } with hst'
      set greatest1 := (if b + s.bytecode > greatest then b + s.bytecode else greatest)
        with hg1
      obtain ⟨st1, heq, hpres, hmem, hwarn, hbi, hpool⟩ :=
        ih st' greatest1 b thisName hnodup1 hfit1
      have hstep : processUseDefs thisName b ((n, .Def s) :: rest) st greatest =
          processUseDefs thisName b rest st' greatest1 := by
        simp only [processUseDefs, hchk]
        rfl
      have hmax : rebasedMax b greatest ((n, .Def s) :: rest) =
          rebasedMax b greatest1 rest := rfl
      refine ⟨st1, by rw [hstep, hmax]; exact heq, ?_, ?_, ?_, hbi, hpool⟩
      · intro name hname
        simp only [List.map_cons, List.mem_cons] at hname
        push_neg at hname
        rw [hpres name (by simpa using hname.2)]
        exact insertDef_lookup_other st.definitions n _ name hname.1
      · intro name d2 hmem2
        rcases List.mem_cons.mp hmem2 with hh | hh
        · rw [Prod.mk.injEq] at hh
          obtain ⟨rfl, rfl⟩ := hh
          rw [hpres _ hnotin]
          exact insertDef_lookup_self st.definitions _ _
        · exact hmem name d2 hh
      · rw [hwarn]
        have hfiltrest : rest.filter (fun p => (st'.definitions.lookup p.1).isSome) =
            rest.filter (fun p => (st.definitions.lookup p.1).isSome) := by
          apply List.filter_congr
          intro p hp
          have hpn : p.1 ≠ n := by
            intro he
            exact hnotin (he ▸ List.mem_map_of_mem Prod.fst hp)
          rw [hst']
          simp only
          rw [insertDef_lookup_other st.definitions n _ p.1 hpn]
        rw [hst']
        simp only [hfiltrest]
        rw [hw1]
        by_cases hcoll : (st.definitions.lookup n).isSome
        · rw [if_pos hcoll]
          rw [List.filter_cons_of_pos (by simpa using hcoll)]
          simp
        · rw [if_neg hcoll]
          rw [List.filter_cons_of_neg (by simpa using hcoll)]
    | Alias al =>
      set warnings1 :=
        (if (st.definitions.lookup n).isSome then
          st.warnings ++ [useDupWarning n]
        else st.warnings) with hw1
      set st' : EnvBuild :=
        { definitions := insertDef st.definitions n (.Alias al)
          pool := st.pool
          bytecodeIndex := st.bytecodeIndex
          warnings := warnings1
          output := st.output } with hst'
      obtain ⟨st1, heq, hpres, hmem, hwarn, hbi, hpool⟩ :=
        ih st' greatest b thisName hnodup1 hfit1
      refine ⟨st1, heq, ?_, ?_, ?_, hbi, hpool⟩
      · intro name hname
        simp only [List.map_cons, List.mem_cons] at hname
        push_neg at hname
        rw [hpres name (by simpa using hname.2)]
        exact insertDef_lookup_other st.definitions n _ name hname.1
      · intro name d2 hmem2
        rcases List.mem_cons.mp hmem2 with hh | hh
        · rw [Prod.mk.injEq] at hh
          obtain ⟨rfl, rfl⟩ := hh
          rw [hpres _ hnotin]
          exact insertDef_lookup_self st.definitions _ _
        · exact hmem name d2 hh
      · rw [hwarn]
        have hfiltrest : rest.filter (fun p => (st'.definitions.lookup p.1).isSome) =
            rest.filter (fun p => (st.definitions.lookup p.1).isSome) := by
          apply List.filter_congr
          intro p hp
          have hpn : p.1 ≠ n := by
            intro he
            exact hnotin (he ▸ List.mem_map_of_mem Prod.fst hp)
          rw [hst']
          simp only
          rw [insertDef_lookup_other st.definitions n _ p.1 hpn]
        rw [hst']
        simp only [hfiltrest]
        rw [hw1]
        by_cases hcoll : (st.definitions.lookup n).isSome
        · rw [if_pos hcoll]
          rw [List.filter_cons_of_pos (by simpa using hcoll)]
          simp
        · rw [if_neg hcoll]
          rw [List.filter_cons_of_neg (by simpa using hcoll)]
    | Mac m =>
      set warnings1 :=
        (if (st.definitions.lookup n).isSome then
          st.warnings ++ [useDupWarning n]
        else st.warnings) with hw1
      set st' : EnvBuild :=
        { definitions := insertDef st.definitions n (.Mac m)
          pool := st.pool
          bytecodeIndex := st.bytecodeIndex
          warnings := warnings1
          output := st.output } with hst'
      obtain ⟨st1, heq, hpres, hmem, hwarn, hbi, hpool⟩ :=
        ih st' greatest b thisName hnodup1 hfit1
      refine ⟨st1, heq, ?_, ?_, ?_, hbi, hpool⟩
      · intro name hname
        simp only [List.map_cons, List.mem_cons] at hname
        push_neg at hname
        rw [hpres name (by simpa using hname.2)]
        exact insertDef_lookup_other st.definitions n _ name hname.1
      · intro name d2 hmem2
        rcases List.mem_cons.mp hmem2 with hh | hh
        · rw [Prod.mk.injEq] at hh
          obtain ⟨rfl, rfl⟩ := hh
          rw [hpres _ hnotin]
          exact insertDef_lookup_self st.definitions _ _
        · exact hmem name d2 hh
      · rw [hwarn]
        have hfiltrest : rest.filter (fun p => (st'.definitions.lookup p.1).isSome) =
            rest.filter (fun p => (st.definitions.lookup p.1).isSome) := by
          apply List.filter_congr
          intro p hp
          have hpn : p.1 ≠ n := by
            intro he
            exact hnotin (he ▸ List.mem_map_of_mem Prod.fst hp)
          rw [hst']
          simp only
          rw [insertDef_lookup_other st.definitions n _ p.1 hpn]
        rw [hst']
        simp only [hfiltrest]
        rw [hw1]
        by_cases hcoll : (st.definitions.lookup n).isSome
        · rw [if_pos hcoll]
          rw [List.filter_cons_of_pos (by simpa using hcoll)]
          simp
        · rw [if_neg hcoll]
          rw [List.filter_cons_of_neg (by simpa using hcoll)]

theorem processUseDefs_err (otherDefs : List (String × Definition)) :
    ∀ (st : EnvBuild) (greatest b : Nat) (thisName : String),
      (∃ p ∈ otherDefs, ∃ s, p.2 = Definition.Def s ∧ 255 < b + s.bytecode) →
      processUseDefs thisName b otherDefs st greatest =
        .error (bytecodeLimitMsg thisName) := by
  induction otherDefs with
  | nil =>
    intro st greatest b thisName h
    obtain ⟨p, hp, _⟩ := h
    simp at hp
  | cons p rest ih =>
    intro st greatest b thisName h
    obtain ⟨n, d⟩ := p
    cases d with
    | Def s =>
      by_cases hfit : b + s.bytecode ≤ 255
      · have hchk : checkedAddU8 b s.bytecode = some (b + s.bytecode) := by
          simp [checkedAddU8, hfit]
        have hrest : ∃ p ∈ rest, ∃ s, p.2 = Definition.Def s ∧ 255 < b + s.bytecode := by
          obtain ⟨q, hq, s2, hs2, hgt⟩ := h
          rcases List.mem_cons.mp hq with hh | hh
          · rw [hh] at hs2
            simp only at hs2
            injection hs2 with hs3
            subst hs3
            omega
          · exact ⟨q, hh, s2, hs2, hgt⟩
        simp only [processUseDefs, hchk]
        exact ih _ _ b thisName hrest
      · have hchk : checkedAddU8 b s.bytecode = none := by
          simp [checkedAddU8]
          omega
        simp only [processUseDefs, hchk]
    | Alias al =>
      have hrest : ∃ p ∈ rest, ∃ s, p.2 = Definition.Def s ∧ 255 < b + s.bytecode := by
        obtain ⟨q, hq, s2, hs2, hgt⟩ := h
        rcases List.mem_cons.mp hq with hh | hh
        · rw [hh] at hs2
          exact absurd hs2 (by simp)
        · exact ⟨q, hh, s2, hs2, hgt⟩
      simp only [processUseDefs]
      exact ih _ _ b thisName hrest
    | Mac m =>
      have hrest : ∃ p ∈ rest, ∃ s, p.2 = Definition.Def s ∧ 255 < b + s.bytecode := by
        obtain ⟨q, hq, s2, hs2, hgt⟩ := h
        rcases List.mem_cons.mp hq with hh | hh
        · rw [hh] at hs2
          exact absurd hs2 (by simp)
        · exact ⟨q, hh, s2, hs2, hgt⟩
      simp only [processUseDefs]
      exact ih _ _ b thisName hrest

theorem compileEnvLoop_simpleDefs (names : List String) :
    ∀ (st : EnvBuild) (thisName : String) (table : List (String × Environment)),
      names.Nodup →
      st.bytecodeIndex + names.length ≤ 255 →
      ∃ st1, compileEnvLoop thisName table
          (names.map (fun n => .definition n (.Def ⟨[], 0⟩))) st = .ok st1
        ∧ (∀ name, name ∉ names →
            st1.definitions.lookup name = st.definitions.lookup name)
        ∧ (∀ k, (hk : k < names.length) →
            st1.definitions.lookup names[k] = some (.Def ⟨[], st.bytecodeIndex + k⟩))
        ∧ st1.bytecodeIndex = st.bytecodeIndex + names.length := by
  induction names with
  | nil =>
    intro st thisName table _ _
    exact ⟨st, rfl, fun _ _ => rfl, fun k hk => absurd hk (by simp), by simp⟩
  | cons n rest ih =>
    intro st thisName table hnodup hle
    have hnotin : n ∉ rest := (List.nodup_cons.mp hnodup).1
    have hnodup1 : rest.Nodup := (List.nodup_cons.mp hnodup).2
    have hchk : checkedAddU8 st.bytecodeIndex 1 = some (st.bytecodeIndex + 1) := by
      simp only [List.length_cons] at hle
      simp [checkedAddU8]
      omega
    set st' : EnvBuild :=
      { definitions := insertDef st.definitions n (.Def ⟨[], st.bytecodeIndex⟩)
        pool := st.pool
        bytecodeIndex := st.bytecodeIndex + 1
        warnings := if (st.definitions.lookup n).isSome then
            st.warnings ++ ["duplicate definition of " ++ n]
          else st.warnings
        output := st.output ++ [⟨thisName, n, st.bytecodeIndex⟩] } with hst'
    have hle1 : st'.bytecodeIndex + rest.length ≤ 255 := by
      rw [hst']
      simp only [List.length_cons] at hle
      simp only
      omega
    obtain ⟨st1, heq, hpres, hmem, hbi⟩ := ih st' thisName table hnodup1 hle1
    have hstep : compileEnvLoop thisName table
        ((n :: rest).map (fun n => .definition n (.Def ⟨[], 0⟩))) st =
        compileEnvLoop thisName table
          (rest.map (fun n => .definition n (.Def ⟨[], 0⟩))) st' := by
      simp only [List.map_cons, compileEnvLoop, compileEnvStep, hchk]
    refine ⟨st1, by rw [hstep]; exact heq, ?_, ?_, ?_⟩
    · intro name hname
      simp only [List.mem_cons] at hname
      push_neg at hname
      rw [hpres name hname.2]
      rw [hst']
      simp only
      exact insertDef_lookup_other st.definitions n _ name hname.1
    · intro k hk
      cases k with
      | zero =>
        simp only [List.getElem_cons_zero]
        rw [hpres n hnotin, hst']
        simp only
        rw [insertDef_lookup_self st.definitions n _]
        rfl
      | succ k1 =>
        simp only [List.getElem_cons_succ]
        have hk1 : k1 < rest.length := by
          simp only [List.length_cons] at hk
          omega
        have := hmem k1 hk1
        rw [this, hst']
        simp only
        have harith : st.bytecodeIndex + 1 + k1 = st.bytecodeIndex + (k1 + 1) := by omega
        rw [harith]
    · rw [hbi, hst']
      simp only [List.length_cons]
      omega

/-- C1, counterexample to the claim as stated: with `A { def f; def g;
def h; }` (ids 0, 1, 2), the environment `B { use A; def extra; }` built
by `compile_environment` assigns `extra` the id 2 — not 3 — because the
counter advances only to the maximum copied id; the copied `h` keeps
id 2, so the two definitions collide. -/
theorem c1_counterexample :
    (c1EnvB.bind (fun e => defIdOf e "extra")) = some 2
    ∧ (c1EnvB.bind (fun e => defIdOf e "extra")) ≠ some 3
    ∧ (c1EnvB.bind (fun e => defIdOf e "h")) = some 2 :=
  ⟨rfl, by decide, rfl⟩

/-- C1 (amended): within one environment block, each Def/Simple statement
receives the next Direct opcode id in source order starting at 0 (first
conjunct); a `use` copies every definition of the named environment,
rebasing each Direct id by the destination's current counter (second
conjunct) and failing if the sum overflows 8 bits (third conjunct), and
advances the counter only to the new maximum rebased id; consequently
`B { use A; def extra; }` over `A { def f; def g; def h; }` assigns
`extra` the id 2, the same id as the copied `h` (last conjuncts). -/
theorem c1_amended_thm :
    (∀ (names : List String) (thisName : String) (table : List (String × Environment)),
      names.Nodup → names.length ≤ 255 →
      ∀ k, (hk : k < names.length) →
        builtDefId (compileEnvironment thisName
          (names.map (fun n => LStatement.definition n (.Def ⟨[], 0⟩))) table)
          names[k] = some k)
    ∧ (∀ (thisName name : String) (table : List (String × Environment))
        (otherEnv : Environment) (st : EnvBuild),
        table.lookup name = some otherEnv →
        (otherEnv.definitions.map Prod.fst).Nodup →
        (∀ p ∈ otherEnv.definitions, ∀ s, p.2 = Definition.Def s →
          st.bytecodeIndex + s.bytecode ≤ 255) →
        ∃ st1, compileEnvStep thisName table st (.use name) = .ok st1
          ∧ (∀ n d, (n, d) ∈ otherEnv.definitions →
              st1.definitions.lookup n = some (rebaseDef st.bytecodeIndex d))
          ∧ st1.bytecodeIndex =
              rebasedMax st.bytecodeIndex st.bytecodeIndex otherEnv.definitions)
    ∧ (∀ (thisName name : String) (table : List (String × Environment))
        (otherEnv : Environment) (st : EnvBuild),
        table.lookup name = some otherEnv →
        (∃ p ∈ otherEnv.definitions, ∃ s, p.2 = Definition.Def s ∧
          255 < st.bytecodeIndex + s.bytecode) →
        compileEnvStep thisName table st (.use name) =
          .error (bytecodeLimitMsg thisName))
    ∧ (c1EnvB.bind (fun e => defIdOf e "extra")) = some 2
    ∧ (c1EnvB.bind (fun e => defIdOf e "h")) = some 2 := by
  refine ⟨?_, ?_, ?_, rfl, rfl⟩
  · intro names thisName table hnodup hlen k hk
    obtain ⟨st1, heq, _, hmem, _⟩ := compileEnvLoop_simpleDefs names ⟨[], 0, 0, [], []⟩
      thisName table hnodup (by simpa using hlen)
    unfold builtDefId compileEnvironment
    rw [heq]
    simp only
    unfold defIdOf
    simp only
    rw [hmem k hk]
    simp
  · intro thisName name table otherEnv st hlook hnodup hfit
    obtain ⟨st1, heq, _, hmem, _, _, _⟩ :=
      processUseDefs_spec otherEnv.definitions st st.bytecodeIndex st.bytecodeIndex
        thisName hnodup hfit
    refine ⟨{st1 with bytecodeIndex := rebasedMax st.bytecodeIndex st.bytecodeIndex otherEnv.definitions}, ?_, ?_, rfl⟩
    · simp only [compileEnvStep]
      rw [hlook]
      dsimp only
      rw [heq]
    · intro n d hm
      dsimp only
      exact hmem n d hm
  · intro thisName name table otherEnv st hlook hex
    simp only [compileEnvStep]
    rw [hlook]
    dsimp only
    rw [processUseDefs_err otherEnv.definitions st st.bytecodeIndex st.bytecodeIndex
      thisName hex]

/-- C1, witness: the sequential-id conjunct at the block
`{ def f; def g; def h; }` places `h` at id 2. -/
theorem c1_witness :
    builtDefId (compileEnvironment "A"
      (["f", "g", "h"].map (fun n => LStatement.definition n (.Def ⟨[], 0⟩))) [])
      "h" = some 2 := by
  have h := c1_amended_thm.1 ["f", "g", "h"] "A" [] (by decide) (by decide) 2 (by decide)
  exact h

/-- C4: when a `use` statement copies a definition whose name already
exists in the destination environment (and every copied id fits in 8
bits), `compile_environment` does not fail: the `Use` step succeeds, the
duplicate-name warning for the colliding name is emitted, and the later
(copied) definition replaces the earlier one in the definition map. -/
theorem c4_thm (thisName : String) (table : List (String × Environment)) (st : EnvBuild)
    (name collName : String) (otherEnv : Environment) (d : Definition)
    (hlook : table.lookup name = some otherEnv)
    (hnodup : (otherEnv.definitions.map Prod.fst).Nodup)
    (hfit : ∀ p ∈ otherEnv.definitions, ∀ s, p.2 = Definition.Def s →
      st.bytecodeIndex + s.bytecode ≤ 255)
    (hmem : (collName, d) ∈ otherEnv.definitions)
    (hcoll : (st.definitions.lookup collName).isSome) :
    (∃ st1, compileEnvStep thisName table st (.use name) = .ok st1)
    ∧ useDupWarning collName ∈
        buildWarnings (compileEnvStep thisName table st (.use name))
    ∧ buildLookup (compileEnvStep thisName table st (.use name)) collName =
        some (rebaseDef st.bytecodeIndex d) := by
  obtain ⟨st1, heq, _, hmemL, hwarn, _, _⟩ :=
    processUseDefs_spec otherEnv.definitions st st.bytecodeIndex st.bytecodeIndex
      thisName hnodup hfit
  have hstep : compileEnvStep thisName table st (.use name) =
      .ok {st1 with bytecodeIndex := rebasedMax st.bytecodeIndex st.bytecodeIndex otherEnv.definitions} := by
    simp only [compileEnvStep]
    rw [hlook]
    dsimp only
    rw [heq]
  refine ⟨⟨_, hstep⟩, ?_, ?_⟩
  · rw [hstep]
    simp only [buildWarnings]
    rw [hwarn]
    have hfm : (collName, d) ∈
        (otherEnv.definitions.filter (fun p => (st.definitions.lookup p.1).isSome)) := by
      rw [List.mem_filter]
      exact ⟨hmem, by simpa using hcoll⟩
    exact List.mem_append_right _ (List.mem_map_of_mem (fun p => useDupWarning p.1) hfm)
  · rw [hstep]
    simp only [buildLookup]
    exact hmemL collName d hmem

/-- C4, witness: merging environment `X`'s `dup` (id 0) into a state that
already defines `dup` at counter 1 succeeds, warns about `dup`, and the
copied, rebased definition (id 1) wins. -/
theorem c4_witness :
    buildLookup (compileEnvStep "B" c4Table c4State (.use "X")) "dup" =
      some (.Def ⟨[], 1⟩)
    ∧ useDupWarning "dup" ∈
        buildWarnings (compileEnvStep "B" c4Table c4State (.use "X")) := by
  have h := c4_thm "B" c4Table c4State "X" "dup" ⟨"X", [("dup", .Def ⟨[], 0⟩)], 0⟩
    (.Def ⟨[], 0⟩) rfl (by simp)
    (by
      intro p hp s hs
      have hp2 : p = ("dup", Definition.Def ⟨[], 0⟩) := by simpa using hp
      subst hp2
      simp only at hs
      injection hs with h2
      cases h2
      decide)
    (List.mem_singleton.mpr rfl) rfl
  exact ⟨h.2.2, h.2.1⟩
